import Mathlib

/-!
Shallow embedding of the EquiPy card engine (src/equipy.py).

Modelling conventions:
- A Python card string such as Kh is modelled as a `Card` structure with a
  value character and a suit character.
- Python card-code strings are modelled as lists of characters; a 5-symbol
  straight window string is modelled as a list of 5 characters.
- Python sets of cards are modelled as duplicate-free lists (for objects whose
  iteration order matters operationally) or as `Finset Card` (for the result
  sets built by the detectors, which the program only uses as sets).
- The dictionaries built by `_gen_values` and `_gen_suits` are modelled by the
  functions `suitsOf` / `valsOfSuit` (value of the dict at a key) together with
  `valuesKeys` / `suitKeys` (the key iteration order, insertion order being an
  arbitrary-order instance of the Python set iteration order).
- Raising `ValueError` is modelled with `Except CardsError`.
- The calls to `np.random.choice` in `_full_house` and `_straight` are
  modelled by an explicit choice parameter `ch : Choice`; each admissible
  random draw of the program corresponds to some value of the parameter.
-/

namespace EquiPy

/-- A playing card: a value character paired with a suit character,
modelling the 2-character Python string ValueSuit. -/
structure Card where
  v : Char
  s : Char
deriving DecidableEq, Repr

/-- Errors raised by the constructors, from the ValueError messages in the
source: Invalid Cards String, Invalid Cards Set, Invalid Hand. -/
inductive CardsError where
  | invalidCardsString
  | invalidCardsSet
  | invalidHand
deriving DecidableEq, Repr

/-- From `_gen_deck`: the value alphabet is the digits 2 through 9 together with
A, T, J, Q, K. -/
def deckValues : List Char :=
  ['2', '3', '4', '5', '6', '7', '8', '9'] ++ ['A', 'T', 'J', 'Q', 'K']

/-- From `_gen_deck`: the suit alphabet. -/
def deckSuits : List Char := ['s', 'h', 'd', 'c']

/-- From `_gen_deck`: the set of the 52 deck cards, every value paired with every
suit. -/
def deck : List Card :=
  (deckValues.map (fun v => deckSuits.map (fun s => Card.mk v s))).flatten

/-- Helper of `_str_to_set`: the loop over the 2-character slices of the
input, accumulating a Python set (modelled as add-if-absent on a list).
Any slice that is not a deck card raises Invalid Cards String. -/
def strToSetAux : List Char → List Card → Except CardsError (List Card)
  | a :: b :: rest, acc =>
    let c : Card := Card.mk a b
    if c ∈ deck then
      strToSetAux rest (if c ∈ acc then acc else acc ++ [c])
    else
      .error .invalidCardsString
  | _, acc => .ok acc

/-- From `_str_to_set`: an odd-length string raises Invalid Cards String,
otherwise each 2-character slice is looked up in the deck and added to the
result set. -/
def strToSet (cs : List Char) : Except CardsError (List Card) :=
  if cs.length % 2 ≠ 0 then .error .invalidCardsString
  else strToSetAux cs []

/-- From `_valid_set`: every card of the set must be a deck card, otherwise
Invalid Cards Set is raised. -/
def validSet (cards : List Card) : Except CardsError Unit :=
  if cards.all (fun c => c ∈ deck) then .ok () else .error .invalidCardsSet

/-- The value of the `_gen_values` dictionary at key `v`: the set of suits
present for that value, as a duplicate-free list in card-list order. -/
def suitsOf (cards : List Card) (v : Char) : List Char :=
  ((cards.filter (fun c => c.v = v)).map Card.s).dedup

/-- The keys of the `_gen_values` dictionary: the distinct values present. -/
def valuesKeys (cards : List Card) : List Char :=
  (cards.map Card.v).dedup

/-- The value of the `_gen_suits` dictionary at key `s`: the set of values
present for that suit. -/
def valsOfSuit (cards : List Card) (s : Char) : List Char :=
  ((cards.filter (fun c => c.s = s)).map Card.v).dedup

/-- The keys of the `_gen_suits` dictionary: the distinct suits present. -/
def suitKeys (cards : List Card) : List Char :=
  (cards.map Card.s).dedup

/-- The `_gen_values` dictionary as an optional map, `values.get(v)`:
`none` when the value is absent from the cards. -/
def valuesIdx (cards : List Card) (v : Char) : Option (List Char) :=
  if suitsOf cards v = [] then none else some (suitsOf cards v)

/-- From `Hand._pair`: the hand is a pair iff the values dictionary has exactly
one key. -/
def pairFn (hand : List Card) : Bool := (valuesKeys hand).length = 1

/-- From `Hand._suited`: the hand is suited iff the suits dictionary has exactly
one key. -/
def suitedFn (hand : List Card) : Bool := (suitKeys hand).length = 1

/-- From `Hand._connected`: the 14-symbol rank sequence with the ace at both
ends, from which the 13 connector windows are sliced. -/
def connValues : List Char :=
  'A' :: ['2', '3', '4', '5', '6', '7', '8', '9'] ++ ['T', 'J', 'Q', 'K', 'A']

/-- From `Hand._connected`: the 13 two-element windows of `connValues`, each kept
as a set of characters (the Python frozensets). -/
def connectors : List (Finset Char) :=
  (List.range 13).map (fun i => ((connValues.drop i).take 2).toFinset)

/-- From `Hand._connected`: the set of the two card values must equal one of the
13 connector windows. -/
def connectedFn (hand : List Card) : Bool :=
  decide ((hand.map Card.v).toFinset ∈ connectors)

deriving instance DecidableEq for Except

/-- The attributes carried by a constructed Hand object. -/
structure HandT where
  hand : List Card
  pair : Bool
  suited : Bool
  connected : Bool
deriving DecidableEq, Repr

/-- From `Hand.__init__` on an already-parsed card set (a duplicate-free list):
validate the cards, then require cardinality 2, then derive the attributes. -/
def mkHandOfSet (hand : List Card) : Except CardsError HandT :=
  match validSet hand with
  | .error e => .error e
  | .ok _ =>
    if hand.length ≠ 2 then .error .invalidHand
    else .ok (HandT.mk hand (pairFn hand) (suitedFn hand) (connectedFn hand))

/-- From `Hand.__init__` on a card-code string: parse it first, then proceed as
on a set. -/
def mkHandOfString (cs : List Char) : Except CardsError HandT :=
  match strToSet cs with
  | .error e => .error e
  | .ok hand => mkHandOfSet hand

/-- From `Cards.__init__` on a card-code string: parse, then validate (the
validation of a freshly parsed set never fails). -/
def mkCardsOfString (cs : List Char) : Except CardsError (List Card) :=
  match strToSet cs with
  | .error e => .error e
  | .ok cards =>
    match validSet cards with
    | .error e => .error e
    | .ok _ => .ok cards

/-- From `Cards.__str__`: concatenate the 2-character tokens of the cards in
iteration order. -/
def render (cards : List Card) : List Char :=
  (cards.map (fun c => [c.v, c.s])).flatten

/-- The 2-character tokens of a card-code string, as cards (the slices taken
by the parsing loop). -/
def tokensP : List Char → List Card
  | a :: b :: rest => Card.mk a b :: tokensP rest
  | _ => []

/-- The descending value order `all_values` used by the detectors and the
kicker fill: A, K, Q, J, T, then 9 down to 2 (the ace does not wrap to the
low end here). -/
def allValues : List Char :=
  ['A', 'K', 'Q', 'J', 'T'] ++ ['9', '8', '7', '6', '5', '4', '3', '2']

/-- The 14-symbol sequence `pvalues` used for straight windows: the
descending value order with the ace appended again at the low end. -/
def allValuesWrap : List Char := allValues ++ ['A']

/-- The 10 overlapping 5-value windows of `allValuesWrap`, from the ace-high
window down to the wheel. -/
def allStraights : List (List Char) :=
  (List.range 10).map (fun i => (allValuesWrap.drop i).take 5)

/-- The choice parameter standing for the draws of `np.random.choice`:
given the value being decided for and the list drawn from, it yields an
arbitrary index seed. -/
def Choice : Type := Char → List Char → Nat

/-- One draw of `np.random.choice(arr, 1)`: an arbitrary element of the
list, selected by reducing the seed modulo the length. -/
def pickOne (l : List Char) (k : Nat) : Char :=
  l.getD (k % l.length) 's'

/-- The aggregate state a detector reads: the full card set, and the
board-only potential-straight windows and potential-flush suit. -/
structure HB where
  cards : List Card
  pstraight : List (List Char)
  pflush : Option Char
deriving DecidableEq, Repr

/-- From `HBoard._pstraight`: keep every 5-value window with at least 3 of the
distinct board values inside it, in window order. -/
def pstraightFn (board : List Card) : List (List Char) :=
  allStraights.filter
    (fun w => 3 ≤ ((valuesKeys board).filter (fun v => v ∈ w)).length)

/-- From `HBoard._pflush`: the first suit (in suits-dictionary key order) with at
least 3 distinct board values; the source returns the suit name, whose
first lowercased letter is the suit character kept here. -/
def pflushFn (board : List Card) : Option Char :=
  (suitKeys board).find? (fun s => 3 ≤ (valsOfSuit board s).length)

/-- From `_straight_flush`: only attempted when both hints are present; scan the
10 windows in the potential-flush suit and return the first one fully
contained in the card set. -/
def straightFlush (hb : HB) : Option (Finset Card) :=
  match hb.pflush, hb.pstraight with
  | some psuit, _ :: _ =>
    ((allStraights.map (fun w => w.map (fun v => Card.mk v psuit))).find?
        (fun cs => cs.all (fun c => c ∈ hb.cards))).map List.toFinset
  | _, _ => none

/-- From `_fill_hand`, inner loop over the suits of one value: add each card of
that value not already dead, decrementing the count and returning early
(flag `true`) when the count reaches zero. -/
def fillSuits (v : Char) (suits : List Char) (dead : Finset Card) (n : Int) :
    Finset Card × Int × Bool :=
  match suits with
  | [] => (dead, n, false)
  | s :: rest =>
    let card : Card := Card.mk v s
    if card ∈ dead then fillSuits v rest dead n
    else if n - 1 = 0 then (insert card dead, n - 1, true)
    else fillSuits v rest (insert card dead) (n - 1)

/-- From `_fill_hand`, outer loop: walk the values in descending order, filling
from each value present in the values dictionary until the early return
fires or the values run out. -/
def fillValues (vs : List Char) (values : Char → Option (List Char))
    (dead : Finset Card) (n : Int) : Finset Card :=
  match vs with
  | [] => dead
  | v :: rest =>
    match values v with
    | none => fillValues rest values dead n
    | some suits =>
      match fillSuits v suits dead n with
      | (dead2, _, true) => dead2
      | (dead2, n2, false) => fillValues rest values dead2 n2

/-- From `_fill_hand`: fill the dead set with the `n` best remaining cards. -/
def fillHand (values : Char → Option (List Char)) (dead : Finset Card)
    (n : Int) : Finset Card :=
  fillValues allValues values dead n

/-- From `_quads`: the first value (in values-dictionary key order) with all 4
suits present; the four suited cards of that value plus one kicker. -/
def quads (hb : HB) : Option (Finset Card) :=
  ((valuesKeys hb.cards).find?
      (fun v => (suitsOf hb.cards v).length = 4)).map
    (fun v =>
      let made := (deckSuits.map (fun s => Card.mk v s)).toFinset
      fillHand (valuesIdx hb.cards) made 1)

/-- From `_full_house`, selection of the pair: draw one suit, erase it, draw a
second suit from the remainder (two distinct suits of the pair value). -/
def fullHousePair (ch : Choice) (v2 : Char) (l : List Char) : Finset Card :=
  let s1 := pickOne l (ch v2 l)
  let rest := l.erase s1
  let s2 := pickOne rest (ch v2 rest)
  {Card.mk v2 s1, Card.mk v2 s2}

/-- From `_full_house`: the first value with exactly 3 suits, paired with the
first other value having at least 2 suits; the trips plus a drawn pair. -/
def fullHouse (ch : Choice) (hb : HB) : Option (Finset Card) :=
  allValues.findSome?
    (fun v1 =>
      if (suitsOf hb.cards v1).length = 3 then
        (allValues.find?
            (fun v2 => 2 ≤ (suitsOf hb.cards v2).length ∧ v2 ≠ v1)).map
          (fun v2 =>
            ((suitsOf hb.cards v1).map (fun s => Card.mk v1 s)).toFinset ∪
              fullHousePair ch v2 (suitsOf hb.cards v2))
      else none)

/-- From `_flush`: the first suit (in suits-dictionary key order) with at least
5 values; its 5 best values, scanning the descending value order. -/
def flushFn (hb : HB) : Option (Finset Card) :=
  ((suitKeys hb.cards).find?
      (fun s => 5 ≤ (valsOfSuit hb.cards s).length)).map
    (fun s =>
      (((allValues.filter (fun v => v ∈ valsOfSuit hb.cards s)).take 5).map
          (fun v => Card.mk v s)).toFinset)

/-- From `_straight`: the first potential-straight window all of whose values
appear in the values dictionary; one drawn suit per value. -/
def straightFn (ch : Choice) (hb : HB) : Option (Finset Card) :=
  (hb.pstraight.find?
      (fun w => w.all (fun v => v ∈ valuesKeys hb.cards))).map
    (fun w =>
      (w.map (fun v =>
          Card.mk v (pickOne (suitsOf hb.cards v) (ch v (suitsOf hb.cards v))))).toFinset)

/-- From `_trips`: the first value with exactly 3 suits; those three cards plus
2 kickers. -/
def trips (hb : HB) : Option (Finset Card) :=
  (allValues.find? (fun v => (suitsOf hb.cards v).length = 3)).map
    (fun v =>
      fillHand (valuesIdx hb.cards)
        (((suitsOf hb.cards v).map (fun s => Card.mk v s)).toFinset) 2)

/-- From `_two_pair`: the first value with exactly 2 suits, paired with the
first other value with exactly 2 suits; the four cards plus 1 kicker. -/
def twoPair (hb : HB) : Option (Finset Card) :=
  allValues.findSome?
    (fun v1 =>
      if (suitsOf hb.cards v1).length = 2 then
        (allValues.find?
            (fun v2 => (suitsOf hb.cards v2).length = 2 ∧ v2 ≠ v1)).map
          (fun v2 =>
            fillHand (valuesIdx hb.cards)
              (((suitsOf hb.cards v1).map (fun s => Card.mk v1 s)).toFinset ∪
                ((suitsOf hb.cards v2).map (fun s => Card.mk v2 s)).toFinset) 1)
      else none)

/-- From `_one_pair`: the first value with exactly 2 suits; the two cards plus
3 kickers. -/
def onePair (hb : HB) : Option (Finset Card) :=
  (allValues.find? (fun v => (suitsOf hb.cards v).length = 2)).map
    (fun v =>
      fillHand (valuesIdx hb.cards)
        (((suitsOf hb.cards v).map (fun s => Card.mk v s)).toFinset) 3)

/-- The ordered detector table of `_best_hand`, a list of detector and
label pairs in insertion order of the source dictionary. -/
def phands (ch : Choice) : List ((HB → Option (Finset Card)) × String) :=
  [(straightFlush, "Straight Flush"),
   (quads, "Four of a Kind"),
   (fullHouse ch, "Full House"),
   (flushFn, "Flush"),
   (straightFn ch, "Straight"),
   (trips, "Three of a Kind"),
   (twoPair, "Two Pair"),
   (onePair, "Pair")]

/-- The loop of `_best_hand`: return the result and label of the first
detector that matches. -/
def bestHandAux (l : List ((HB → Option (Finset Card)) × String)) (hb : HB) :
    Option (Finset Card × String) :=
  match l with
  | [] => none
  | (f, lbl) :: rest =>
    match f hb with
    | some h => some (h, lbl)
    | none => bestHandAux rest hb

/-- From `_best_hand`: the first matching detector wins; otherwise the 5 best
cards overall with the label none. -/
def bestHand (ch : Choice) (hb : HB) : Finset Card × String :=
  match bestHandAux (phands ch) hb with
  | some r => r
  | none => (fillHand (valuesIdx hb.cards) ∅ 5, "none")

/-- The fields of a constructed HBoard object that the claims examine. -/
structure HBoardT where
  cards : List Card
  board : List Card
  pstraight : List (List Char)
  pflush : Option Char
  best_hand : Finset Card
  best_hand_type : String
deriving DecidableEq

/-- Tail of `HBoard.__init__` shared by the board stages: dedupe the
accumulated unions into sets, derive the hints, resolve the best hand. -/
def mkHBoardRest (ch : Choice) (cards board : List Card) :
    Except CardsError HBoardT :=
  let cardsS := cards.dedup
  let boardS := board.dedup
  let hb : HB := HB.mk cardsS (pstraightFn boardS) (pflushFn boardS)
  let bh := bestHand ch hb
  .ok (HBoardT.mk cardsS boardS hb.pstraight hb.pflush bh.1 bh.2)

/-- From `HBoard.__init__` on already-parsed card sets (duplicate-free lists):
validate hand and flop, build the Hand (cardinality check), accumulate the
turn only when present and the river only when the turn is present, then
derive the hints and resolve the best hand. -/
def mkHBoard (ch : Choice) (hand flop turn river : List Card) :
    Except CardsError HBoardT :=
  match validSet (hand ++ flop) with
  | .error e => .error e
  | .ok _ =>
    match mkHandOfSet hand with
    | .error e => .error e
    | .ok _ =>
      let cards0 := hand ++ flop
      let board0 := flop
      match turn with
      | [] =>
        mkHBoardRest ch cards0 board0
      | t :: ts =>
        match validSet (t :: ts) with
        | .error e => .error e
        | .ok _ =>
          let cards1 := cards0 ++ (t :: ts)
          let board1 := board0 ++ (t :: ts)
          match river with
          | [] => mkHBoardRest ch cards1 board1
          | r :: rs =>
            match validSet (r :: rs) with
            | .error e => .error e
            | .ok _ =>
              mkHBoardRest ch (cards1 ++ (r :: rs)) (board1 ++ (r :: rs))

/-- Written from the specification text: the 10 overlapping 5-value windows
of the 14-symbol rank sequence, A-high down through the 5-4-3-2-A wheel,
each listed highest value first. -/
def specWindows : List (List Char) :=
  [['A', 'K', 'Q', 'J', 'T'],
   ['K', 'Q', 'J', 'T', '9'],
   ['Q', 'J', 'T', '9', '8'],
   ['J', 'T', '9', '8', '7'],
   ['T', '9', '8', '7', '6'],
   ['9', '8', '7', '6', '5'],
   ['8', '7', '6', '5', '4'],
   ['7', '6', '5', '4', '3'],
   ['6', '5', '4', '3', '2'],
   ['5', '4', '3', '2', 'A']]

/-- Written from the specification text: keep a window iff at least 3 of
the window values occur among the board values, in descending-strength
window order. -/
def specPStraights (board : List Card) : List (List Char) :=
  specWindows.filter
    (fun w => 3 ≤ (w.filter (fun v => v ∈ board.map Card.v)).length)

/-- Written from the specification text: the 13 overlapping 2-element
windows of the 14-symbol rank sequence, with the ace at both ends. -/
def specConnWindows : List (Finset Char) :=
  [{'A', '2'}, {'2', '3'}, {'3', '4'}, {'4', '5'}, {'5', '6'}, {'6', '7'},
   {'7', '8'}, {'8', '9'}, {'9', 'T'}, {'T', 'J'}, {'J', 'Q'}, {'Q', 'K'},
   {'K', 'A'}]

/-- A concrete choice parameter: always draw index 0. -/
def ch0 : Choice := fun _ _ => 0

/-- A concrete choice parameter: always draw index 1. -/
def ch1 : Choice := fun _ _ => 1

end EquiPy

namespace EquiPy

theorem tokensP_render (l : List Card) : tokensP (render l) = l := by
  induction l with
  | nil => rfl
  | cons c rest ih =>
    show tokensP (c.v :: c.s :: render rest) = c :: rest
    rw [tokensP, ih]

theorem tokensP_length :
    ∀ cs : List Char, cs.length % 2 = 0 →
      (tokensP cs).length = cs.length / 2
  | [], _ => rfl
  | [a], h => by simp at h
  | a :: b :: rest, h => by
    have h2 : rest.length % 2 = 0 := by
      simp only [List.length_cons] at h
      omega
    rw [tokensP, List.length_cons, tokensP_length rest h2]
    simp only [List.length_cons]
    omega

theorem strToSetAux_ok_mem :
    ∀ (cs : List Char) (acc l : List Card), strToSetAux cs acc = .ok l →
      ∀ c : Card, c ∈ l ↔ c ∈ acc ∨ c ∈ tokensP cs
  | [], acc, l, h, c => by
    simp only [strToSetAux] at h
    cases h
    simp [tokensP]
  | [a], acc, l, h, c => by
    simp only [strToSetAux] at h
    cases h
    simp [tokensP]
  | a :: b :: rest, acc, l, h, c => by
    rw [strToSetAux] at h
    by_cases hd : Card.mk a b ∈ deck
    · rw [if_pos hd] at h
      have ih := strToSetAux_ok_mem rest _ l h c
      rw [ih, tokensP]
      by_cases ha : Card.mk a b ∈ acc
      · rw [if_pos ha]
        constructor
        · rintro (hc | hc)
          · exact Or.inl hc
          · exact Or.inr (List.mem_cons_of_mem _ hc)
        · rintro (hc | hc)
          · exact Or.inl hc
          · rcases List.mem_cons.mp hc with hc | hc
            · exact Or.inl (hc ▸ ha)
            · exact Or.inr hc
      · rw [if_neg ha]
        simp only [List.mem_append, List.mem_singleton, List.mem_cons]
        tauto
    · rw [if_neg hd] at h
      cases h

theorem strToSetAux_ok_tokens_valid :
    ∀ (cs : List Char) (acc l : List Card), strToSetAux cs acc = .ok l →
      ∀ t ∈ tokensP cs, t ∈ deck
  | [], _, _, _, t, ht => by cases ht
  | [a], _, _, _, t, ht => by cases ht
  | a :: b :: rest, acc, l, h, t, ht => by
    rw [strToSetAux] at h
    by_cases hd : Card.mk a b ∈ deck
    · rw [if_pos hd] at h
      rcases List.mem_cons.mp ht with ht | ht
      · exact ht ▸ hd
      · exact strToSetAux_ok_tokens_valid rest _ l h t ht
    · rw [if_neg hd] at h
      cases h

theorem strToSetAux_ok_nodup :
    ∀ (cs : List Char) (acc l : List Card), acc.Nodup →
      strToSetAux cs acc = .ok l → l.Nodup
  | [], acc, l, ha, h => by
    simp only [strToSetAux] at h
    cases h
    exact ha
  | [a], acc, l, ha, h => by
    simp only [strToSetAux] at h
    cases h
    exact ha
  | a :: b :: rest, acc, l, ha, h => by
    rw [strToSetAux] at h
    by_cases hd : Card.mk a b ∈ deck
    · rw [if_pos hd] at h
      by_cases hm : Card.mk a b ∈ acc
      · rw [if_pos hm] at h
        exact strToSetAux_ok_nodup rest _ l ha h
      · rw [if_neg hm] at h
        refine strToSetAux_ok_nodup rest _ l
          (List.Nodup.append ha (List.nodup_singleton _) ?_) h
        intro x hx hxe
        rw [List.mem_singleton] at hxe
        exact hm (hxe ▸ hx)
    · rw [if_neg hd] at h
      cases h

theorem strToSetAux_ok_append :
    ∀ (cs : List Char) (acc l : List Card), strToSetAux cs acc = .ok l →
      (tokensP cs).Nodup → (∀ t ∈ tokensP cs, t ∉ acc) →
      l = acc ++ tokensP cs
  | [], acc, l, h, _, _ => by
    simp only [strToSetAux] at h
    cases h
    simp [tokensP]
  | [a], acc, l, h, _, _ => by
    simp only [strToSetAux] at h
    cases h
    simp [tokensP]
  | a :: b :: rest, acc, l, h, hnd, hdisj => by
    rw [strToSetAux] at h
    rw [tokensP] at hnd hdisj ⊢
    by_cases hd : Card.mk a b ∈ deck
    · rw [if_pos hd] at h
      have hm : Card.mk a b ∉ acc := hdisj _ (List.mem_cons_self _ _)
      rw [if_neg hm] at h
      have ih := strToSetAux_ok_append rest (acc ++ [Card.mk a b]) l h
        (List.Nodup.of_cons hnd) ?_
      · rw [ih, List.append_assoc]
        rfl
      · intro t ht
        simp only [List.mem_append, List.mem_singleton]
        rintro (hta | hte)
        · exact hdisj t (List.mem_cons_of_mem _ ht) hta
        · exact (List.nodup_cons.mp hnd).1 (hte ▸ ht)
    · rw [if_neg hd] at h
      cases h

theorem strToSetAux_bad :
    ∀ (cs : List Char) (acc : List Card),
      (∃ t, t ∈ tokensP cs ∧ t ∉ deck) →
      strToSetAux cs acc = .error .invalidCardsString
  | [], _, h => by
    rcases h with ⟨t, ht, _⟩
    cases ht
  | [a], _, h => by
    rcases h with ⟨t, ht, _⟩
    cases ht
  | a :: b :: rest, acc, h => by
    rw [strToSetAux]
    by_cases hd : Card.mk a b ∈ deck
    · rw [if_pos hd]
      rcases h with ⟨t, ht, htd⟩
      rcases List.mem_cons.mp ht with ht | ht
      · exact absurd (ht ▸ hd) htd
      · exact strToSetAux_bad rest _ ⟨t, ht, htd⟩
    · rw [if_neg hd]

theorem strToSet_ok_even (cs : List Char) (l : List Card)
    (h : strToSet cs = .ok l) : cs.length % 2 = 0 := by
  unfold strToSet at h
  by_cases he : cs.length % 2 ≠ 0
  · rw [if_pos he] at h
    cases h
  · omega

theorem strToSet_ok_mem (cs : List Char) (l : List Card)
    (h : strToSet cs = .ok l) : ∀ c : Card, c ∈ l ↔ c ∈ tokensP cs := by
  unfold strToSet at h
  by_cases he : cs.length % 2 ≠ 0
  · rw [if_pos he] at h
    cases h
  · rw [if_neg he] at h
    intro c
    rw [strToSetAux_ok_mem cs [] l h c]
    simp

theorem strToSet_ok_nodup (cs : List Char) (l : List Card)
    (h : strToSet cs = .ok l) : l.Nodup := by
  unfold strToSet at h
  by_cases he : cs.length % 2 ≠ 0
  · rw [if_pos he] at h
    cases h
  · rw [if_neg he] at h
    exact strToSetAux_ok_nodup cs [] l List.nodup_nil h

theorem strToSet_ok_valid (cs : List Char) (l : List Card)
    (h : strToSet cs = .ok l) : ∀ c ∈ l, c ∈ deck := by
  intro c hc
  rw [strToSet_ok_mem cs l h c] at hc
  unfold strToSet at h
  by_cases he : cs.length % 2 ≠ 0
  · rw [if_pos he] at h
    cases h
  · rw [if_neg he] at h
    exact strToSetAux_ok_tokens_valid cs [] l h c hc

theorem mkCardsOfString_eq (cs : List Char) :
    mkCardsOfString cs = strToSet cs := by
  unfold mkCardsOfString
  cases h : strToSet cs with
  | error e => rfl
  | ok l =>
    have hv : validSet l = .ok () := by
      unfold validSet
      rw [if_pos]
      rw [List.all_eq_true]
      intro c hc
      exact decide_eq_true (strToSet_ok_valid cs l h c hc)
    simp [hv]

/-- C4, counterexample: on the even-length string 1s, whose single
2-character token is shaped like a card but names no deck card, the Cards
constructor fails with Invalid Cards String, not Invalid Cards Set. -/
theorem c4_counterexample :
    mkCardsOfString ['1', 's'] = .error .invalidCardsString ∧
      CardsError.invalidCardsString ≠ CardsError.invalidCardsSet := by
  decide

/-- C4, amended: for every string input to Cards, an odd-length string and
an even-length string containing a token that names no deck card both fail
with Invalid Cards String (Invalid Cards Set arises only for set inputs). -/
theorem c4_amended_errors :
    ∀ cs : List Char,
      cs.length % 2 = 1 ∨ (∃ t ∈ tokensP cs, t ∉ deck) →
      mkCardsOfString cs = .error .invalidCardsString := by
  intro cs h
  rw [mkCardsOfString_eq]
  unfold strToSet
  by_cases he : cs.length % 2 ≠ 0
  · rw [if_pos he]
  · rw [if_neg he]
    rcases h with h | h
    · omega
    · rcases h with ⟨t, ht, htd⟩
      exact strToSetAux_bad cs [] ⟨t, ht, htd⟩

/-- Witness for the amended C4, at the odd-length string 2ch. -/
theorem c4_witness :
    mkCardsOfString ['2', 'c', 'h'] = .error .invalidCardsString :=
  c4_amended_errors ['2', 'c', 'h'] (Or.inl (by decide))

/-- C5, counterexample: the string 2c2c parses successfully, but rendering
the parsed set back produces one token where the input had two, so the
token multisets differ. -/
theorem c5_counterexample :
    mkCardsOfString ['2', 'c', '2', 'c'] = .ok [Card.mk '2' 'c'] ∧
      ¬ (tokensP (render [Card.mk '2' 'c'])).Perm
          (tokensP ['2', 'c', '2', 'c']) := by
  decide

/-- C5, amended: parsing a card-set string and re-rendering the parsed set
reproduces the input tokens with duplicates collapsed to one occurrence:
the output tokens are duplicate-free and range over exactly the input
tokens, and when the input tokens are pairwise distinct the output token
multiset is a permutation of the input token multiset. -/
theorem c5_amended_roundtrip :
    ∀ (cs : List Char) (l : List Card), strToSet cs = .ok l →
      (tokensP (render l)).Nodup ∧
        (∀ t : Card, t ∈ tokensP (render l) ↔ t ∈ tokensP cs) ∧
        ((tokensP cs).Nodup →
          (tokensP (render l)).Perm (tokensP cs)) := by
  intro cs l h
  rw [tokensP_render]
  have hnd := strToSet_ok_nodup cs l h
  have hmem := strToSet_ok_mem cs l h
  refine ⟨hnd, hmem, fun hcs => ?_⟩
  exact List.perm_of_nodup_nodup_toFinset_eq hnd hcs (List.toFinset.ext hmem)

/-- Witness for the amended C5, at the duplicate-free string 2c3d. -/
theorem c5_witness :
    (tokensP (render [Card.mk '2' 'c', Card.mk '3' 'd'])).Nodup ∧
      (∀ t : Card,
        t ∈ tokensP (render [Card.mk '2' 'c', Card.mk '3' 'd']) ↔
          t ∈ tokensP ['2', 'c', '3', 'd']) ∧
      ((tokensP ['2', 'c', '3', 'd']).Nodup →
        (tokensP (render [Card.mk '2' 'c', Card.mk '3' 'd'])).Perm
          (tokensP ['2', 'c', '3', 'd'])) :=
  c5_amended_roundtrip ['2', 'c', '3', 'd'] [Card.mk '2' 'c', Card.mk '3' 'd']
    (by decide)

/-- C10: parsing silently collapses repeated tokens, so a successfully
parsed string whose token list has a duplicate yields a set strictly
smaller than its token count; in particular KhKh parses to the single card
Kh and the Hand constructor on KhKh fails with Invalid Hand. -/
theorem c10_duplicate_collapse :
    (∀ (cs : List Char) (l : List Card), strToSet cs = .ok l →
        ¬ (tokensP cs).Nodup → l.length < cs.length / 2) ∧
      strToSet ['K', 'h', 'K', 'h'] = .ok [Card.mk 'K' 'h'] ∧
      mkHandOfString ['K', 'h', 'K', 'h'] = .error .invalidHand := by
  refine ⟨?_, by decide, by decide⟩
  intro cs l h hdup
  have hnd := strToSet_ok_nodup cs l h
  have hfin : l.toFinset = (tokensP cs).toFinset :=
    List.toFinset.ext (strToSet_ok_mem cs l h)
  have h1 : l.length = (tokensP cs).dedup.length := by
    rw [← List.toFinset_card_of_nodup hnd, hfin, List.card_toFinset]
  have h2 : (tokensP cs).dedup.length < (tokensP cs).length := by
    rcases Nat.lt_or_ge (tokensP cs).dedup.length (tokensP cs).length with
      hlt | hge
    · exact hlt
    · exfalso
      exact hdup (List.dedup_eq_self.mp
        ((tokensP cs).dedup_sublist.eq_of_length_le hge))
  rw [← tokensP_length cs (strToSet_ok_even cs l h), h1]
  exact h2

/-- Witness for C10, at the duplicated string 2c2c. -/
theorem c10_witness :
    ([Card.mk '2' 'c'] : List Card).length <
      (['2', 'c', '2', 'c'] : List Char).length / 2 :=
  c10_duplicate_collapse.1 ['2', 'c', '2', 'c'] [Card.mk '2' 'c']
    (by decide) (by decide)

theorem mkHandOfSet_ok (hand : List Card) (h : HandT)
    (hok : mkHandOfSet hand = .ok h) :
    h = HandT.mk hand (pairFn hand) (suitedFn hand) (connectedFn hand) ∧
      hand.length = 2 ∧ ∀ c ∈ hand, c ∈ deck := by
  unfold mkHandOfSet at hok
  cases hv : validSet hand with
  | error e =>
    rw [hv] at hok
    cases hok
  | ok u =>
    rw [hv] at hok
    have hval : ∀ c ∈ hand, c ∈ deck := by
      unfold validSet at hv
      by_cases hall : (hand.all fun c => decide (c ∈ deck)) = true
      · rw [List.all_eq_true] at hall
        intro c hc
        exact of_decide_eq_true (hall c hc)
      · rw [if_neg hall] at hv
        cases hv
    by_cases hl : hand.length ≠ 2
    · rw [if_pos hl] at hok
      cases hok
    · rw [if_neg hl] at hok
      cases hok
      exact ⟨rfl, by omega, hval⟩

theorem mkHandOfSet_invalidHand_iff (hand : List Card)
    (hv : ∀ c ∈ hand, c ∈ deck) :
    (mkHandOfSet hand = .error .invalidHand) ↔ hand.length ≠ 2 := by
  have hall : (hand.all fun c => decide (c ∈ deck)) = true := by
    rw [List.all_eq_true]
    intro c hc
    exact decide_eq_true (hv c hc)
  have hvs : validSet hand = .ok () := by
    unfold validSet
    rw [if_pos hall]
  unfold mkHandOfSet
  rw [hvs]
  by_cases hl : hand.length ≠ 2
  · simp only [if_pos hl]
    simp [hl]
  · simp only [if_neg hl]
    simp [hl]

/-- C7: for every successfully constructed hand, the connected attribute is
true iff the set of the two values equals one of the 13 overlapping
2-element windows of the 14-symbol rank sequence; in particular the hands
A-2 and K-A are both connected. -/
theorem c7_connected_windows :
    (∀ (hand : List Card) (h : HandT), mkHandOfSet hand = .ok h →
        (h.connected = true ↔ (hand.map Card.v).toFinset ∈ specConnWindows)) ∧
      mkHandOfSet [Card.mk 'A' 's', Card.mk '2' 'd'] =
        .ok (HandT.mk [Card.mk 'A' 's', Card.mk '2' 'd'] false false true) ∧
      mkHandOfSet [Card.mk 'K' 's', Card.mk 'A' 'd'] =
        .ok (HandT.mk [Card.mk 'K' 's', Card.mk 'A' 'd'] false false true) := by
  refine ⟨?_, by decide, by decide⟩
  intro hand h hok
  rw [(mkHandOfSet_ok hand h hok).1]
  show connectedFn hand = true ↔ _
  unfold connectedFn
  rw [decide_eq_true_eq]
  have hw : connectors = specConnWindows := by decide
  rw [hw]

/-- Witness for C7, at the hand Kh Td (an unconnected hand). -/
theorem c7_witness :
    (HandT.mk [Card.mk 'K' 'h', Card.mk 'T' 'd'] false false false).connected
        = true ↔
      (([Card.mk 'K' 'h', Card.mk 'T' 'd'] : List Card).map Card.v).toFinset
        ∈ specConnWindows :=
  c7_connected_windows.1 [Card.mk 'K' 'h', Card.mk 'T' 'd'] _ (by decide)

/-- C9: for set inputs whose cards are all deck cards, the Hand constructor
fails with Invalid Hand iff the cardinality differs from 2; validity is
checked before the cardinality (an invalid card yields Invalid Cards Set
even at wrong cardinality); and the same iff holds along the string path
for the parsed set. -/
theorem c9_hand_cardinality :
    (∀ hand : List Card, hand.Nodup → (∀ c ∈ hand, c ∈ deck) →
        ((mkHandOfSet hand = .error .invalidHand) ↔ hand.length ≠ 2)) ∧
      (∀ hand : List Card, ¬ (∀ c ∈ hand, c ∈ deck) →
        mkHandOfSet hand = .error .invalidCardsSet) ∧
      (∀ (cs : List Char) (l : List Card), strToSet cs = .ok l →
        ((mkHandOfString cs = .error .invalidHand) ↔ l.length ≠ 2)) := by
  refine ⟨fun hand _ hv => mkHandOfSet_invalidHand_iff hand hv, ?_, ?_⟩
  · intro hand hv
    have hall : ¬ ((hand.all fun c => decide (c ∈ deck)) = true) := by
      rw [List.all_eq_true]
      intro h
      exact hv (fun c hc => of_decide_eq_true (h c hc))
    have hvs : validSet hand = .error .invalidCardsSet := by
      unfold validSet
      rw [if_neg hall]
    unfold mkHandOfSet
    rw [hvs]
  · intro cs l h
    unfold mkHandOfString
    rw [h]
    exact mkHandOfSet_invalidHand_iff l (strToSet_ok_valid cs l h)

/-- Witness for C9, at a 3-card set of valid cards and at a set holding a
non-deck card. -/
theorem c9_witness :
    ((mkHandOfSet [Card.mk '2' 'c', Card.mk '3' 'd', Card.mk '4' 'h'] =
          .error .invalidHand) ↔
        ([Card.mk '2' 'c', Card.mk '3' 'd', Card.mk '4' 'h'] :
          List Card).length ≠ 2) ∧
      mkHandOfSet [Card.mk '1' 's', Card.mk '2' 'c', Card.mk '3' 'd'] =
        .error .invalidCardsSet :=
  ⟨c9_hand_cardinality.1 [Card.mk '2' 'c', Card.mk '3' 'd', Card.mk '4' 'h']
      (by decide) (by decide),
    c9_hand_cardinality.2.1 [Card.mk '1' 's', Card.mk '2' 'c', Card.mk '3' 'd']
      (by decide)⟩

theorem filter_mem_length_comm (l1 l2 : List Char)
    (h1 : l1.Nodup) (h2 : l2.Nodup) :
    (l1.filter (fun x => x ∈ l2)).length =
      (l2.filter (fun x => x ∈ l1)).length := by
  have key : ∀ (a b : List Char), a.Nodup →
      (a.filter (fun x => x ∈ b)).length = (a.toFinset ∩ b.toFinset).card := by
    intro a b ha
    rw [← List.toFinset_card_of_nodup (ha.filter _)]
    congr 1
    ext x
    simp [List.mem_filter]
  rw [key l1 l2 h1, key l2 l1 h2, Finset.inter_comm]

/-- C8: for every board card set, the potential-straight derivation returns
exactly the windows of the explicit 10-window table for which at least 3 of
the 5 window values occur among the board values, in descending-strength
order starting from the ace-high window (and the empty list when no window
qualifies). -/
theorem c8_pstraight_spec :
    ∀ board : List Card, pstraightFn board = specPStraights board := by
  intro board
  unfold pstraightFn specPStraights
  have hs : allStraights = specWindows := by decide
  rw [hs]
  apply List.filter_congr
  intro w hw
  have hwnd : w.Nodup := by
    have hall : ∀ x ∈ specWindows, List.Nodup x := by decide
    exact hall w hw
  have hkey2 : w.filter (fun v => v ∈ valuesKeys board) =
      w.filter (fun v => v ∈ board.map Card.v) := by
    apply List.filter_congr
    intro v _
    simp [valuesKeys, List.mem_dedup]
  have hkey : ((valuesKeys board).filter (fun v => v ∈ w)).length =
      (w.filter (fun v => v ∈ board.map Card.v)).length := by
    rw [← hkey2]
    exact filter_mem_length_comm _ _ (List.nodup_dedup _) hwnd
  rw [hkey]

theorem bestHandAux_prefix_none :
    ∀ (l1 l2 : List ((HB → Option (Finset Card)) × String))
      (f : HB → Option (Finset Card)) (lbl : String) (hb : HB)
      (s : Finset Card),
      (∀ p ∈ l1, p.1 hb = none) → f hb = some s →
      bestHandAux (l1 ++ (f, lbl) :: l2) hb = some (s, lbl)
  | [], l2, f, lbl, hb, s, _, hf => by
    rw [List.nil_append, bestHandAux, hf]
  | (g, glbl) :: rest, l2, f, lbl, hb, s, hnone, hf => by
    rw [List.cons_append, bestHandAux]
    have hg : g hb = none := hnone (g, glbl) (List.mem_cons_self _ _)
    rw [hg]
    exact bestHandAux_prefix_none rest l2 f lbl hb s
      (fun p hp => hnone p (List.mem_cons_of_mem _ hp)) hf

/-- C2: the resolver returns the result of the first detector of the
ordered table that matches: whenever every detector before position i
returns no match and the detector at position i matches, its result and
label are returned; in particular a detectable Straight Flush is always
the returned category. -/
theorem c2_first_match_priority :
    (∀ (ch : Choice) (hb : HB)
        (l1 l2 : List ((HB → Option (Finset Card)) × String))
        (f : HB → Option (Finset Card)) (lbl : String) (s : Finset Card),
        phands ch = l1 ++ (f, lbl) :: l2 →
        (∀ p ∈ l1, p.1 hb = none) → f hb = some s →
        bestHand ch hb = (s, lbl)) ∧
      (∀ (ch : Choice) (hb : HB) (s : Finset Card),
        straightFlush hb = some s →
        bestHand ch hb = (s, "Straight Flush")) := by
  have main : ∀ (ch : Choice) (hb : HB)
      (l1 l2 : List ((HB → Option (Finset Card)) × String))
      (f : HB → Option (Finset Card)) (lbl : String) (s : Finset Card),
      phands ch = l1 ++ (f, lbl) :: l2 →
      (∀ p ∈ l1, p.1 hb = none) → f hb = some s →
      bestHand ch hb = (s, lbl) := by
    intro ch hb l1 l2 f lbl s hph hnone hf
    unfold bestHand
    rw [hph, bestHandAux_prefix_none l1 l2 f lbl hb s hnone hf]
  refine ⟨main, ?_⟩
  intro ch hb s hsf
  exact main ch hb []
    [(quads, "Four of a Kind"),
     (fullHouse ch, "Full House"),
     (flushFn, "Flush"),
     (straightFn ch, "Straight"),
     (trips, "Three of a Kind"),
     (twoPair, "Two Pair"),
     (onePair, "Pair")]
    straightFlush ("Straight Flush") s rfl (by intro p hp; cases hp) hsf

/-- Witness for C2, at an aggregate holding the straight flush 8h-4h. -/
theorem c2_witness :
    bestHand ch0
        (HB.mk
          [Card.mk '8' 'h', Card.mk '7' 'h', Card.mk '6' 'h',
            Card.mk '5' 'h', Card.mk '4' 'h']
          (pstraightFn [Card.mk '6' 'h', Card.mk '5' 'h', Card.mk '4' 'h'])
          (pflushFn [Card.mk '6' 'h', Card.mk '5' 'h', Card.mk '4' 'h'])) =
      ({Card.mk '8' 'h', Card.mk '7' 'h', Card.mk '6' 'h',
          Card.mk '5' 'h', Card.mk '4' 'h'}, "Straight Flush") :=
  c2_first_match_priority.2 ch0 _ _ (by decide)

theorem findSome?_isSome_congr {α β : Type} :
    ∀ (l : List α) (f g : α → Option β),
      (∀ a ∈ l, (f a).isSome = (g a).isSome) →
      (l.findSome? f).isSome = (l.findSome? g).isSome
  | [], _, _, _ => rfl
  | a :: t, f, g, h => by
    rw [List.findSome?_cons, List.findSome?_cons]
    have ha := h a (List.mem_cons_self _ _)
    cases hfa : f a with
    | some b =>
      cases hga : g a with
      | some c => rfl
      | none =>
        rw [hfa, hga] at ha
        cases ha
    | none =>
      cases hga : g a with
      | some c =>
        rw [hfa, hga] at ha
        cases ha
      | none =>
        exact findSome?_isSome_congr t f g
          (fun x hx => h x (List.mem_cons_of_mem _ hx))

theorem fullHouse_isSome_congr (ca cb : Choice) (hb : HB) :
    (fullHouse ca hb).isSome = (fullHouse cb hb).isSome := by
  unfold fullHouse
  apply findSome?_isSome_congr
  intro v1 _
  by_cases hg : (suitsOf hb.cards v1).length = 3
  · rw [if_pos hg, if_pos hg]
    rw [Option.isSome_map', Option.isSome_map']
  · rw [if_neg hg, if_neg hg]

theorem straightFn_isSome_congr (ca cb : Choice) (hb : HB) :
    (straightFn ca hb).isSome = (straightFn cb hb).isSome := by
  unfold straightFn
  rw [Option.isSome_map', Option.isSome_map']

/-- C6, counterexample: on the aggregate built from hand Kh Td, flop
Qh Js 9c, turn 9d, two admissible evaluations of the resolver (two
admissible random draws for the suit of the 9 in the straight) return
different best-hand card sets, so the resolver is not deterministic. -/
theorem c6_counterexample :
    (mkHBoard ch0 [Card.mk 'K' 'h', Card.mk 'T' 'd']
          [Card.mk 'Q' 'h', Card.mk 'J' 's', Card.mk '9' 'c']
          [Card.mk '9' 'd'] []).map HBoardT.best_hand ≠
      (mkHBoard ch1 [Card.mk 'K' 'h', Card.mk 'T' 'd']
          [Card.mk 'Q' 'h', Card.mk 'J' 's', Card.mk '9' 'c']
          [Card.mk '9' 'd'] []).map HBoardT.best_hand := by
  decide

/-- C6, amended: the category label returned by the resolver is the same
across any two evaluations on the same aggregate (the random draws can
change only the suits inside a Straight best hand or the pair of a Full
House best hand, never the label). -/
theorem image_v_map_toFinset (w : List Char) (f : Char → Card)
    (hf : ∀ v, (f v).v = v) :
    Finset.image Card.v (w.map f).toFinset = w.toFinset := by
  ext a
  rw [Finset.mem_image]
  simp only [List.mem_toFinset, List.mem_map]
  constructor
  · rintro ⟨c, ⟨v, hv, rfl⟩, rfl⟩
    rw [hf v]
    exact hv
  · intro ha
    exact ⟨f a, ⟨a, ha, rfl⟩, hf a⟩

theorem findSome?_rel {α β : Type} (R : β → β → Prop) :
    ∀ (l : List α) (f g : α → Option β),
      (∀ a ∈ l, (f a).isSome = (g a).isSome ∧
        ∀ b c, f a = some b → g a = some c → R b c) →
      ∀ b c, l.findSome? f = some b → l.findSome? g = some c → R b c
  | [], f, g, h, b, c, hfb, hgc => by
    rw [List.findSome?_nil] at hfb
    cases hfb
  | a :: t, f, g, h, b, c, hfb, hgc => by
    cases hfa : f a with
    | some b2 =>
      have hred : (a :: t).findSome? f = f a :=
        List.findSome?_cons_of_isSome _ (by rw [hfa]; rfl)
      rw [hred, hfa] at hfb
      cases hfb
      cases hga : g a with
      | some c2 =>
        have hred2 : (a :: t).findSome? g = g a :=
          List.findSome?_cons_of_isSome _ (by rw [hga]; rfl)
        rw [hred2, hga] at hgc
        cases hgc
        exact (h a (List.mem_cons_self _ _)).2 _ _ hfa hga
      | none =>
        have hmix := (h a (List.mem_cons_self _ _)).1
        rw [hfa, hga] at hmix
        cases hmix
    | none =>
      cases hga : g a with
      | some c2 =>
        have hmix := (h a (List.mem_cons_self _ _)).1
        rw [hfa, hga] at hmix
        cases hmix
      | none =>
        have hred : (a :: t).findSome? f = t.findSome? f :=
          List.findSome?_cons_of_isNone _ (by rw [hfa]; rfl)
        have hred2 : (a :: t).findSome? g = t.findSome? g :=
          List.findSome?_cons_of_isNone _ (by rw [hga]; rfl)
        rw [hred] at hfb
        rw [hred2] at hgc
        exact findSome?_rel R t f g
          (fun x hx => h x (List.mem_cons_of_mem _ hx)) b c hfb hgc

theorem straightFn_image_eq (ca cb : Choice) (hb : HB) (x y : Finset Card)
    (hx : straightFn ca hb = some x) (hy : straightFn cb hb = some y) :
    Finset.image Card.v x = Finset.image Card.v y := by
  unfold straightFn at hx hy
  rcases Option.map_eq_some'.mp hx with ⟨w1, hf1, hx2⟩
  rcases Option.map_eq_some'.mp hy with ⟨w2, hf2, hy2⟩
  have hw : w1 = w2 := by
    rw [hf1] at hf2
    cases hf2
    rfl
  subst hw
  rw [← hx2, ← hy2,
    image_v_map_toFinset _ _ (fun v => rfl),
    image_v_map_toFinset _ _ (fun v => rfl)]

theorem fullHouse_image_eq (ca cb : Choice) (hb : HB) (x y : Finset Card)
    (hx : fullHouse ca hb = some x) (hy : fullHouse cb hb = some y) :
    Finset.image Card.v x = Finset.image Card.v y := by
  unfold fullHouse at hx hy
  refine findSome?_rel
    (fun x y => Finset.image Card.v x = Finset.image Card.v y)
    allValues _ _ ?_ x y hx hy
  intro v1 _
  constructor
  · by_cases hg : (suitsOf hb.cards v1).length = 3
    · rw [if_pos hg, if_pos hg, Option.isSome_map', Option.isSome_map']
    · rw [if_neg hg, if_neg hg]
  · intro b c hbEq hcEq
    by_cases hg : (suitsOf hb.cards v1).length = 3
    · rw [if_pos hg] at hbEq hcEq
      rcases Option.map_eq_some'.mp hbEq with ⟨v2, hfv2, hb2⟩
      rcases Option.map_eq_some'.mp hcEq with ⟨v2b, hfv2b, hc2⟩
      have hv2 : v2 = v2b := by
        rw [hfv2b] at hfv2
        cases hfv2
        rfl
      subst hv2
      rw [← hb2, ← hc2, Finset.image_union, Finset.image_union]
      congr 1
      have himg : ∀ ch : Choice, Finset.image Card.v
          (fullHousePair ch v2 (suitsOf hb.cards v2)) = {v2} := by
        intro ch
        unfold fullHousePair
        rw [Finset.image_insert, Finset.image_singleton]
        simp
      rw [himg ca, himg cb]
    · rw [if_neg hg] at hbEq
      cases hbEq

/-- C6, amended: across any two evaluations on the same aggregate, the
resolver returns the same category label; whenever that label is neither
Straight nor Full House the best-hand card sets are identical; and in all
cases the two best hands contain exactly the same card values, so any
difference is confined to the suits drawn for a Straight or for the pair
of a Full House. -/
theorem c6_amended_determinism :
    ∀ (hb : HB) (ca cb : Choice),
      (bestHand ca hb).2 = (bestHand cb hb).2 ∧
        ((bestHand ca hb).2 ≠ "Straight" ∧ (bestHand ca hb).2 ≠ "Full House" →
          (bestHand ca hb).1 = (bestHand cb hb).1) ∧
        Finset.image Card.v (bestHand ca hb).1 =
          Finset.image Card.v (bestHand cb hb).1 := by
  intro hb ca cb
  unfold bestHand
  simp only [phands, bestHandAux]
  cases h1 : straightFlush hb with
  | some x => exact ⟨rfl, fun _ => rfl, rfl⟩
  | none =>
  cases h2 : quads hb with
  | some x => exact ⟨rfl, fun _ => rfl, rfl⟩
  | none =>
  have hfh := fullHouse_isSome_congr ca cb hb
  cases h3a : fullHouse ca hb with
  | some x =>
    cases h3b : fullHouse cb hb with
    | some y =>
      exact ⟨rfl, fun h => absurd rfl h.2,
        fullHouse_image_eq ca cb hb x y h3a h3b⟩
    | none =>
      rw [h3a, h3b] at hfh
      cases hfh
  | none =>
  cases h3b : fullHouse cb hb with
  | some y =>
    rw [h3a, h3b] at hfh
    cases hfh
  | none =>
  cases h4 : flushFn hb with
  | some x => exact ⟨rfl, fun _ => rfl, rfl⟩
  | none =>
  have hst := straightFn_isSome_congr ca cb hb
  cases h5a : straightFn ca hb with
  | some x =>
    cases h5b : straightFn cb hb with
    | some y =>
      exact ⟨rfl, fun h => absurd rfl h.1,
        straightFn_image_eq ca cb hb x y h5a h5b⟩
    | none =>
      rw [h5a, h5b] at hst
      cases hst
  | none =>
  cases h5b : straightFn cb hb with
  | some y =>
    rw [h5a, h5b] at hst
    cases hst
  | none =>
  cases h6 : trips hb with
  | some x => exact ⟨rfl, fun _ => rfl, rfl⟩
  | none =>
  cases h7 : twoPair hb with
  | some x => exact ⟨rfl, fun _ => rfl, rfl⟩
  | none =>
  cases h8 : onePair hb with
  | some x => exact ⟨rfl, fun _ => rfl, rfl⟩
  | none => exact ⟨rfl, fun _ => rfl, rfl⟩

/-- Witness for the amended C6, at a 2-card aggregate resolved by the
high-card fallback, whose label none is neither Straight nor Full House. -/
theorem c6_amended_witness :
    (bestHand ch0
          (HB.mk [Card.mk '2' 'c', Card.mk '3' 'd'] [] none)).2 =
        (bestHand ch1
          (HB.mk [Card.mk '2' 'c', Card.mk '3' 'd'] [] none)).2 ∧
      (bestHand ch0
          (HB.mk [Card.mk '2' 'c', Card.mk '3' 'd'] [] none)).1 =
        (bestHand ch1
          (HB.mk [Card.mk '2' 'c', Card.mk '3' 'd'] [] none)).1 ∧
      Finset.image Card.v (bestHand ch0
          (HB.mk [Card.mk '2' 'c', Card.mk '3' 'd'] [] none)).1 =
        Finset.image Card.v (bestHand ch1
          (HB.mk [Card.mk '2' 'c', Card.mk '3' 'd'] [] none)).1 :=
  have h := c6_amended_determinism
    (HB.mk [Card.mk '2' 'c', Card.mk '3' 'd'] [] none) ch0 ch1
  ⟨h.1, h.2.1 (by decide), h.2.2⟩

theorem pickOne_singleton (x : Char) (k : Nat) : pickOne [x] k = x := by
  simp [pickOne, Nat.mod_one]

/-- C3: the aggregate for hand Kh Td, flop 5h 7d 9c, turn Js, river Qh has
potential straights KQJT9, QJT98, JT987, 98765, no potential flush suit,
and best hand Kh Js Td Qh 9c with category Straight, for every admissible
random draw. -/
theorem c3_concrete_scenario :
    ∀ ch : Choice,
      mkHBoard ch [Card.mk 'K' 'h', Card.mk 'T' 'd']
          [Card.mk '5' 'h', Card.mk '7' 'd', Card.mk '9' 'c']
          [Card.mk 'J' 's'] [Card.mk 'Q' 'h'] =
        .ok (HBoardT.mk
          [Card.mk 'K' 'h', Card.mk 'T' 'd', Card.mk '5' 'h', Card.mk '7' 'd',
            Card.mk '9' 'c', Card.mk 'J' 's', Card.mk 'Q' 'h']
          [Card.mk '5' 'h', Card.mk '7' 'd', Card.mk '9' 'c', Card.mk 'J' 's',
            Card.mk 'Q' 'h']
          [['K', 'Q', 'J', 'T', '9'], ['Q', 'J', 'T', '9', '8'],
            ['J', 'T', '9', '8', '7'], ['9', '8', '7', '6', '5']]
          none
          {Card.mk 'K' 'h', Card.mk 'J' 's', Card.mk 'T' 'd', Card.mk 'Q' 'h',
            Card.mk '9' 'c'}
          "Straight") := by
  intro ch
  have hstep : mkHBoard ch [Card.mk 'K' 'h', Card.mk 'T' 'd']
      [Card.mk '5' 'h', Card.mk '7' 'd', Card.mk '9' 'c']
      [Card.mk 'J' 's'] [Card.mk 'Q' 'h'] =
      mkHBoardRest ch
        [Card.mk 'K' 'h', Card.mk 'T' 'd', Card.mk '5' 'h', Card.mk '7' 'd',
          Card.mk '9' 'c', Card.mk 'J' 's', Card.mk 'Q' 'h']
        [Card.mk '5' 'h', Card.mk '7' 'd', Card.mk '9' 'c', Card.mk 'J' 's',
          Card.mk 'Q' 'h'] := rfl
  rw [hstep]
  have hbh : bestHand ch
      (HB.mk
        [Card.mk 'K' 'h', Card.mk 'T' 'd', Card.mk '5' 'h', Card.mk '7' 'd',
          Card.mk '9' 'c', Card.mk 'J' 's', Card.mk 'Q' 'h']
        [['K', 'Q', 'J', 'T', '9'], ['Q', 'J', 'T', '9', '8'],
          ['J', 'T', '9', '8', '7'], ['9', '8', '7', '6', '5']]
        none) =
      ({Card.mk 'K' 'h', Card.mk 'J' 's', Card.mk 'T' 'd', Card.mk 'Q' 'h',
          Card.mk '9' 'c'}, "Straight") := by
    unfold bestHand
    simp only [phands, bestHandAux]
    have h1 : straightFlush
        (HB.mk
          [Card.mk 'K' 'h', Card.mk 'T' 'd', Card.mk '5' 'h', Card.mk '7' 'd',
            Card.mk '9' 'c', Card.mk 'J' 's', Card.mk 'Q' 'h']
          [['K', 'Q', 'J', 'T', '9'], ['Q', 'J', 'T', '9', '8'],
            ['J', 'T', '9', '8', '7'], ['9', '8', '7', '6', '5']]
          none) = none := by decide
    have h2 : quads
        (HB.mk
          [Card.mk 'K' 'h', Card.mk 'T' 'd', Card.mk '5' 'h', Card.mk '7' 'd',
            Card.mk '9' 'c', Card.mk 'J' 's', Card.mk 'Q' 'h']
          [['K', 'Q', 'J', 'T', '9'], ['Q', 'J', 'T', '9', '8'],
            ['J', 'T', '9', '8', '7'], ['9', '8', '7', '6', '5']]
          none) = none := by decide
    have h3 : fullHouse ch
        (HB.mk
          [Card.mk 'K' 'h', Card.mk 'T' 'd', Card.mk '5' 'h', Card.mk '7' 'd',
            Card.mk '9' 'c', Card.mk 'J' 's', Card.mk 'Q' 'h']
          [['K', 'Q', 'J', 'T', '9'], ['Q', 'J', 'T', '9', '8'],
            ['J', 'T', '9', '8', '7'], ['9', '8', '7', '6', '5']]
          none) = none := rfl
    have h4 : flushFn
        (HB.mk
          [Card.mk 'K' 'h', Card.mk 'T' 'd', Card.mk '5' 'h', Card.mk '7' 'd',
            Card.mk '9' 'c', Card.mk 'J' 's', Card.mk 'Q' 'h']
          [['K', 'Q', 'J', 'T', '9'], ['Q', 'J', 'T', '9', '8'],
            ['J', 'T', '9', '8', '7'], ['9', '8', '7', '6', '5']]
          none) = none := by decide
    have h5 : straightFn ch
        (HB.mk
          [Card.mk 'K' 'h', Card.mk 'T' 'd', Card.mk '5' 'h', Card.mk '7' 'd',
            Card.mk '9' 'c', Card.mk 'J' 's', Card.mk 'Q' 'h']
          [['K', 'Q', 'J', 'T', '9'], ['Q', 'J', 'T', '9', '8'],
            ['J', 'T', '9', '8', '7'], ['9', '8', '7', '6', '5']]
          none) =
        some {Card.mk 'K' 'h', Card.mk 'J' 's', Card.mk 'T' 'd',
          Card.mk 'Q' 'h', Card.mk '9' 'c'} := by
      unfold straightFn
      have hfind :
          (([['K', 'Q', 'J', 'T', '9'], ['Q', 'J', 'T', '9', '8'],
              ['J', 'T', '9', '8', '7'],
              ['9', '8', '7', '6', '5']] : List (List Char)).find?
            (fun w => w.all (fun v => v ∈ valuesKeys
              [Card.mk 'K' 'h', Card.mk 'T' 'd', Card.mk '5' 'h',
                Card.mk '7' 'd', Card.mk '9' 'c', Card.mk 'J' 's',
                Card.mk 'Q' 'h']))) = some ['K', 'Q', 'J', 'T', '9'] := by
        decide
      rw [hfind, Option.map_some']
      congr 1
      have hK : suitsOf
          [Card.mk 'K' 'h', Card.mk 'T' 'd', Card.mk '5' 'h', Card.mk '7' 'd',
            Card.mk '9' 'c', Card.mk 'J' 's', Card.mk 'Q' 'h'] 'K' = ['h'] := by
        decide
      have hQ : suitsOf
          [Card.mk 'K' 'h', Card.mk 'T' 'd', Card.mk '5' 'h', Card.mk '7' 'd',
            Card.mk '9' 'c', Card.mk 'J' 's', Card.mk 'Q' 'h'] 'Q' = ['h'] := by
        decide
      have hJ : suitsOf
          [Card.mk 'K' 'h', Card.mk 'T' 'd', Card.mk '5' 'h', Card.mk '7' 'd',
            Card.mk '9' 'c', Card.mk 'J' 's', Card.mk 'Q' 'h'] 'J' = ['s'] := by
        decide
      have hT : suitsOf
          [Card.mk 'K' 'h', Card.mk 'T' 'd', Card.mk '5' 'h', Card.mk '7' 'd',
            Card.mk '9' 'c', Card.mk 'J' 's', Card.mk 'Q' 'h'] 'T' = ['d'] := by
        decide
      have h9 : suitsOf
          [Card.mk 'K' 'h', Card.mk 'T' 'd', Card.mk '5' 'h', Card.mk '7' 'd',
            Card.mk '9' 'c', Card.mk 'J' 's', Card.mk 'Q' 'h'] '9' = ['c'] := by
        decide
      simp only [List.map_cons, List.map_nil, hK, hQ, hJ, hT, h9,
        pickOne_singleton]
      decide
    rw [h1, h2, h3, h4, h5]
  unfold mkHBoardRest
  simp only []
  have hd1 :
      ([Card.mk 'K' 'h', Card.mk 'T' 'd', Card.mk '5' 'h', Card.mk '7' 'd',
        Card.mk '9' 'c', Card.mk 'J' 's', Card.mk 'Q' 'h'] :
          List Card).dedup =
      [Card.mk 'K' 'h', Card.mk 'T' 'd', Card.mk '5' 'h', Card.mk '7' 'd',
        Card.mk '9' 'c', Card.mk 'J' 's', Card.mk 'Q' 'h'] := by decide
  have hd2 :
      ([Card.mk '5' 'h', Card.mk '7' 'd', Card.mk '9' 'c', Card.mk 'J' 's',
        Card.mk 'Q' 'h'] : List Card).dedup =
      [Card.mk '5' 'h', Card.mk '7' 'd', Card.mk '9' 'c', Card.mk 'J' 's',
        Card.mk 'Q' 'h'] := by decide
  have hps : pstraightFn
      [Card.mk '5' 'h', Card.mk '7' 'd', Card.mk '9' 'c', Card.mk 'J' 's',
        Card.mk 'Q' 'h'] =
      [['K', 'Q', 'J', 'T', '9'], ['Q', 'J', 'T', '9', '8'],
        ['J', 'T', '9', '8', '7'], ['9', '8', '7', '6', '5']] := by decide
  have hpf : pflushFn
      [Card.mk '5' 'h', Card.mk '7' 'd', Card.mk '9' 'c', Card.mk 'J' 's',
        Card.mk 'Q' 'h'] = none := by decide
  simp only [hd1, hd2, hps, hpf, hbh]

theorem mem_suitsOf (cards : List Card) (v s : Char) :
    s ∈ suitsOf cards v ↔ Card.mk v s ∈ cards := by
  unfold suitsOf
  rw [List.mem_dedup, List.mem_map]
  constructor
  · rintro ⟨c, hc, rfl⟩
    rw [List.mem_filter] at hc
    have hcv : c.v = v := by
      have := hc.2
      simpa using this
    have : Card.mk v c.s = c := by
      cases c
      simp at hcv
      rw [hcv]
    rw [this]
    exact hc.1
  · intro hc
    refine ⟨Card.mk v s, ?_, rfl⟩
    rw [List.mem_filter]
    exact ⟨hc, by simp⟩

theorem valuesIdx_eq_some (cards : List Card) (v : Char) (l : List Char)
    (h : valuesIdx cards v = some l) : l = suitsOf cards v := by
  unfold valuesIdx at h
  by_cases he : suitsOf cards v = []
  · rw [if_pos he] at h
    cases h
  · rw [if_neg he] at h
    cases h
    rfl

theorem valuesIdx_of_mem (cards : List Card) (c : Card) (hc : c ∈ cards) :
    valuesIdx cards c.v = some (suitsOf cards c.v) := by
  unfold valuesIdx
  rw [if_neg]
  intro he
  have : c.s ∈ suitsOf cards c.v := by
    rw [mem_suitsOf]
    exact hc
  rw [he] at this
  cases this

theorem deckValue_mem_allValues : ∀ c ∈ deck, c.v ∈ allValues := by decide

theorem fillSuits_spec :
    ∀ (suits : List Char) (v : Char) (dead : Finset Card) (n : Int)
      (d2 : Finset Card) (n2 : Int) (b : Bool),
      fillSuits v suits dead n = (d2, n2, b) →
      dead ⊆ d2 ∧
        (∀ c ∈ d2, c ∈ dead ∨ (c.v = v ∧ c.s ∈ suits)) ∧
        ((d2.card : Int) + n2 = (dead.card : Int) + n) ∧
        (b = true → n2 = 0) ∧
        (b = false → ∀ s ∈ suits, Card.mk v s ∈ d2) ∧
        (1 ≤ n → 0 ≤ n2) ∧
        (b = false → 1 ≤ n → 1 ≤ n2)
  | [], v, dead, n, d2, n2, b, h => by
    rw [fillSuits] at h
    cases h
    refine ⟨Finset.Subset.refl _, fun c hc => Or.inl hc, by ring, ?_, ?_, ?_, ?_⟩
    · intro hb
      cases hb
    · intro _ s hs
      cases hs
    · intro hn
      omega
    · intro _ hn
      omega
  | s :: rest, v, dead, n, d2, n2, b, h => by
    rw [fillSuits] at h
    by_cases hmem : Card.mk v s ∈ dead
    · rw [if_pos hmem] at h
      obtain ⟨h1, h2, h3, h4, h5, h6, h7⟩ :=
        fillSuits_spec rest v dead n d2 n2 b h
      refine ⟨h1, ?_, h3, h4, ?_, h6, h7⟩
      · intro c hc
        rcases h2 c hc with hc2 | ⟨hcv, hcs⟩
        · exact Or.inl hc2
        · exact Or.inr ⟨hcv, List.mem_cons_of_mem _ hcs⟩
      · intro hb t ht
        rcases List.mem_cons.mp ht with rfl | ht
        · exact h1 hmem
        · exact h5 hb t ht
    · rw [if_neg hmem] at h
      by_cases hz : n - 1 = 0
      · rw [if_pos hz] at h
        cases h
        refine ⟨Finset.subset_insert _ _, ?_, ?_, fun _ => hz, ?_, ?_, ?_⟩
        · intro c hc
          rcases Finset.mem_insert.mp hc with rfl | hc2
          · exact Or.inr ⟨rfl, List.mem_cons_self _ _⟩
          · exact Or.inl hc2
        · rw [Finset.card_insert_of_not_mem hmem]
          push_cast
          omega
        · intro hb
          cases hb
        · intro hn
          omega
        · intro hb
          cases hb
      · rw [if_neg hz] at h
        obtain ⟨h1, h2, h3, h4, h5, h6, h7⟩ :=
          fillSuits_spec rest v (insert (Card.mk v s) dead) (n - 1) d2 n2 b h
        rw [Finset.card_insert_of_not_mem hmem] at h3
        refine ⟨(Finset.subset_insert _ _).trans h1, ?_, ?_, h4, ?_, ?_, ?_⟩
        · intro c hc
          rcases h2 c hc with hc2 | ⟨hcv, hcs⟩
          · rcases Finset.mem_insert.mp hc2 with rfl | hc3
            · exact Or.inr ⟨rfl, List.mem_cons_self _ _⟩
            · exact Or.inl hc3
          · exact Or.inr ⟨hcv, List.mem_cons_of_mem _ hcs⟩
        · push_cast at h3 ⊢
          omega
        · intro hb t ht
          rcases List.mem_cons.mp ht with rfl | ht
          · exact h1 (Finset.mem_insert_self _ _)
          · exact h5 hb t ht
        · intro hn
          exact h6 (by omega)
        · intro hb hn
          exact h7 hb (by omega)

theorem fillValues_spec :
    ∀ (vs : List Char) (values : Char → Option (List Char))
      (dead : Finset Card) (n : Int),
      dead ⊆ fillValues vs values dead n ∧
        (∀ c ∈ fillValues vs values dead n,
          c ∈ dead ∨ ∃ suits, values c.v = some suits ∧ c.s ∈ suits) ∧
        (1 ≤ n →
          ((fillValues vs values dead n).card : Int) ≤ (dead.card : Int) + n) ∧
        (1 ≤ n →
          ((fillValues vs values dead n).card : Int) < (dead.card : Int) + n →
          ∀ v ∈ vs, ∀ suits, values v = some suits → ∀ s ∈ suits,
            Card.mk v s ∈ fillValues vs values dead n)
  | [], values, dead, n => by
    simp only [fillValues]
    refine ⟨Finset.Subset.refl _, fun c hc => Or.inl hc, ?_, ?_⟩
    · intro hn
      omega
    · intro _ _ v hv
      cases hv
  | v :: rest, values, dead, n => by
    simp only [fillValues]
    split
    next heq =>
      obtain ⟨i1, i2, i3, i4⟩ := fillValues_spec rest values dead n
      refine ⟨i1, i2, i3, ?_⟩
      intro hn hlt w hw suits hs s hss
      rcases List.mem_cons.mp hw with rfl | hw
      · rw [heq] at hs
        cases hs
      · exact i4 hn hlt w hw suits hs s hss
    next suits heq =>
      split
      next d2 n0 heq2 =>
        obtain ⟨s1, s2, s3, s4, s5, s6, s7⟩ :=
          fillSuits_spec suits v dead n d2 n0 true heq2
        have hn2 : n0 = 0 := s4 rfl
        refine ⟨s1, ?_, ?_, ?_⟩
        · intro c hc
          rcases s2 c hc with hc2 | ⟨hcv, hcs⟩
          · exact Or.inl hc2
          · exact Or.inr ⟨suits, by rw [hcv, heq], hcs⟩
        · intro hn
          omega
        · intro hn hlt
          omega
      next d2 n2 heq2 =>
        obtain ⟨s1, s2, s3, s4, s5, s6, s7⟩ :=
          fillSuits_spec suits v dead n d2 n2 false heq2
        obtain ⟨i1, i2, i3, i4⟩ := fillValues_spec rest values d2 n2
        refine ⟨s1.trans i1, ?_, ?_, ?_⟩
        · intro c hc
          rcases i2 c hc with hc2 | hex
          · rcases s2 c hc2 with hc3 | ⟨hcv, hcs⟩
            · exact Or.inl hc3
            · exact Or.inr ⟨suits, by rw [hcv, heq], hcs⟩
          · exact Or.inr hex
        · intro hn
          have hn2 : 1 ≤ n2 := s7 rfl hn
          have := i3 hn2
          omega
        · intro hn hlt w hw suits2 hs s hss
          have hn2 : 1 ≤ n2 := s7 rfl hn
          rcases List.mem_cons.mp hw with rfl | hw
          · rw [heq] at hs
            cases hs
            exact i1 (s5 rfl s hss)
          · have hlt2 : ((fillValues rest values d2 n2).card : Int) <
                (d2.card : Int) + n2 := by
              omega
            exact i4 hn2 hlt2 w hw suits2 hs s hss

theorem fillHand_bounds (cards : List Card) (dead : Finset Card) (n : Int)
    (hn : 1 ≤ n) (hdead : ∀ c ∈ dead, c ∈ cards)
    (hval : ∀ c ∈ cards, c ∈ deck) :
    (∀ c ∈ fillHand (valuesIdx cards) dead n, c ∈ cards) ∧
      ((fillHand (valuesIdx cards) dead n).card : Int) ≤ (dead.card : Int) + n ∧
      (((fillHand (valuesIdx cards) dead n).card : Int) < (dead.card : Int) + n →
        ∀ c ∈ cards, c ∈ fillHand (valuesIdx cards) dead n) := by
  obtain ⟨f1, f2, f3, f4⟩ := fillValues_spec allValues (valuesIdx cards) dead n
  refine ⟨?_, f3 hn, ?_⟩
  · intro c hc
    rcases f2 c hc with hc2 | ⟨suits, hs, hss⟩
    · exact hdead c hc2
    · rw [valuesIdx_eq_some cards c.v suits hs] at hss
      rw [mem_suitsOf] at hss
      exact hss
  · intro hlt c hc
    have hvK : valuesIdx cards c.v = some (suitsOf cards c.v) :=
      valuesIdx_of_mem cards c hc
    have hsK : c.s ∈ suitsOf cards c.v := by
      rw [mem_suitsOf]
      exact hc
    exact f4 hn hlt c.v (deckValue_mem_allValues c (hval c hc))
      (suitsOf cards c.v) hvK c.s hsK

theorem mem_valsOfSuit (cards : List Card) (t v : Char) :
    v ∈ valsOfSuit cards t ↔ Card.mk v t ∈ cards := by
  unfold valsOfSuit
  rw [List.mem_dedup, List.mem_map]
  constructor
  · rintro ⟨c, hc, rfl⟩
    rw [List.mem_filter] at hc
    have hcs : c.s = t := by
      have := hc.2
      simpa using this
    have : Card.mk c.v t = c := by
      cases c
      simp at hcs
      rw [hcs]
    rw [this]
    exact hc.1
  · intro hc
    refine ⟨Card.mk v t, ?_, rfl⟩
    rw [List.mem_filter]
    exact ⟨hc, by simp⟩

theorem mem_valuesKeys (cards : List Card) (v : Char) :
    v ∈ valuesKeys cards ↔ suitsOf cards v ≠ [] := by
  unfold valuesKeys
  rw [List.mem_dedup, List.mem_map]
  constructor
  · rintro ⟨c, hc, rfl⟩ he
    have : c.s ∈ suitsOf cards c.v := by
      rw [mem_suitsOf]
      exact hc
    rw [he] at this
    cases this
  · intro he
    rcases List.exists_mem_of_ne_nil _ he with ⟨t, ht⟩
    rw [mem_suitsOf] at ht
    exact ⟨Card.mk v t, ht, rfl⟩

theorem mem_valueCards (v : Char) (l : List Char) (c : Card) :
    c ∈ (l.map (fun t => Card.mk v t)).toFinset ↔ c.v = v ∧ c.s ∈ l := by
  rw [List.mem_toFinset, List.mem_map]
  constructor
  · rintro ⟨t, ht, rfl⟩
    exact ⟨rfl, ht⟩
  · rintro ⟨hv, hs⟩
    refine ⟨c.s, hs, ?_⟩
    cases c
    simp at hv
    rw [hv]

theorem card_valueCards (v : Char) (l : List Char) (h : l.Nodup) :
    (l.map (fun t => Card.mk v t)).toFinset.card = l.length := by
  rw [List.toFinset_card_of_nodup, List.length_map]
  exact h.map (fun a b hab => by
    have := congrArg Card.s hab
    simpa using this)

theorem suitsOf_nodup (cards : List Card) (v : Char) :
    (suitsOf cards v).Nodup := List.nodup_dedup _

theorem deckSuit_mem_deckSuits : ∀ c ∈ deck, c.s ∈ deckSuits := by decide

theorem pickOne_mem (l : List Char) (k : Nat) (h : l ≠ []) :
    pickOne l k ∈ l := by
  unfold pickOne
  have hlen : 0 < l.length := List.length_pos.mpr h
  have hk : k % l.length < l.length := Nat.mod_lt _ hlen
  rw [List.getD_eq_getElem _ _ hk]
  exact List.getElem_mem hk

theorem straightFlush_bounds (hb : HB) (s : Finset Card)
    (h : straightFlush hb = some s) :
    (∀ c ∈ s, c ∈ hb.cards) ∧ s.card = 5 := by
  unfold straightFlush at h
  split at h
  next psuit w ws =>
    rcases Option.map_eq_some'.mp h with ⟨cs, hfind, hs⟩
    have hmem := List.mem_of_find?_eq_some hfind
    have hpred := List.find?_some hfind
    rw [List.mem_map] at hmem
    rcases hmem with ⟨win, hwin, rfl⟩
    have hwnd : win.Nodup ∧ win.length = 5 := by
      have hall : ∀ x ∈ allStraights, List.Nodup x ∧ x.length = 5 := by decide
      exact hall win hwin
    constructor
    · intro c hc
      rw [← hs] at hc
      rw [List.mem_toFinset] at hc
      have hall := List.all_eq_true.mp hpred c hc
      exact of_decide_eq_true hall
    · rw [← hs]
      rw [List.toFinset_card_of_nodup, List.length_map, hwnd.2]
      exact hwnd.1.map (fun a b hab => by
        have := congrArg Card.v hab
        simpa using this)
  next h2 =>
    cases h

theorem quads_bounds (hb : HB) (s : Finset Card)
    (hval : ∀ c ∈ hb.cards, c ∈ deck)
    (h : quads hb = some s) :
    (∀ c ∈ s, c ∈ hb.cards) ∧ s.card ≤ 5 ∧
      (s.card < 5 → ∀ c ∈ hb.cards, c ∈ s) := by
  unfold quads at h
  rcases Option.map_eq_some'.mp h with ⟨v, hfind, hs⟩
  have hlen : (suitsOf hb.cards v).length = 4 := by
    have hp := List.find?_some hfind
    simpa using hp
  have hs2 : fillHand (valuesIdx hb.cards)
      ((deckSuits.map (fun t => Card.mk v t)).toFinset) 1 = s := hs
  have hsetEq : (suitsOf hb.cards v).toFinset = deckSuits.toFinset := by
    apply Finset.eq_of_subset_of_card_le
    · intro x hx
      rw [List.mem_toFinset] at hx ⊢
      have hcx : Card.mk v x ∈ hb.cards := (mem_suitsOf _ _ _).mp hx
      have := deckSuit_mem_deckSuits _ (hval _ hcx)
      simpa using this
    · rw [List.toFinset_card_of_nodup (suitsOf_nodup _ _), hlen]
      have h4 : deckSuits.toFinset.card = 4 := by decide
      omega
  have hdead : ∀ c ∈ (deckSuits.map (fun t => Card.mk v t)).toFinset,
      c ∈ hb.cards := by
    intro c hc
    rw [mem_valueCards] at hc
    have hcs : c.s ∈ suitsOf hb.cards v := by
      have hx : c.s ∈ (suitsOf hb.cards v).toFinset := by
        rw [hsetEq, List.mem_toFinset]
        exact hc.2
      rw [List.mem_toFinset] at hx
      exact hx
    have hm := (mem_suitsOf _ _ _).mp hcs
    rw [← hc.1] at hm
    exact hm
  obtain ⟨f1, f2, f3⟩ := fillHand_bounds hb.cards _ 1 (by omega) hdead hval
  have hdcard : (deckSuits.map (fun t => Card.mk v t)).toFinset.card = 4 := by
    rw [card_valueCards v deckSuits (by decide)]
    rfl
  rw [hs2] at f1 f2 f3
  rw [hdcard] at f2 f3
  exact ⟨f1, by omega, fun hlt c hc => f3 (by omega) c hc⟩

theorem trips_bounds (hb : HB) (s : Finset Card)
    (hval : ∀ c ∈ hb.cards, c ∈ deck)
    (h : trips hb = some s) :
    (∀ c ∈ s, c ∈ hb.cards) ∧ s.card ≤ 5 ∧
      (s.card < 5 → ∀ c ∈ hb.cards, c ∈ s) := by
  unfold trips at h
  rcases Option.map_eq_some'.mp h with ⟨v, hfind, hs⟩
  have hlen : (suitsOf hb.cards v).length = 3 := by
    have hp := List.find?_some hfind
    simpa using hp
  have hs2 : fillHand (valuesIdx hb.cards)
      (((suitsOf hb.cards v).map (fun t => Card.mk v t)).toFinset) 2 = s := hs
  have hdead : ∀ c ∈ ((suitsOf hb.cards v).map
      (fun t => Card.mk v t)).toFinset, c ∈ hb.cards := by
    intro c hc
    rw [mem_valueCards] at hc
    have hm := (mem_suitsOf _ _ _).mp hc.2
    rw [← hc.1] at hm
    exact hm
  obtain ⟨f1, f2, f3⟩ := fillHand_bounds hb.cards _ 2 (by omega) hdead hval
  have hdcard : ((suitsOf hb.cards v).map
      (fun t => Card.mk v t)).toFinset.card = 3 := by
    rw [card_valueCards v _ (suitsOf_nodup _ _)]
    exact hlen
  rw [hs2] at f1 f2 f3
  rw [hdcard] at f2 f3
  exact ⟨f1, by omega, fun hlt c hc => f3 (by omega) c hc⟩

theorem onePair_bounds (hb : HB) (s : Finset Card)
    (hval : ∀ c ∈ hb.cards, c ∈ deck)
    (h : onePair hb = some s) :
    (∀ c ∈ s, c ∈ hb.cards) ∧ s.card ≤ 5 ∧
      (s.card < 5 → ∀ c ∈ hb.cards, c ∈ s) := by
  unfold onePair at h
  rcases Option.map_eq_some'.mp h with ⟨v, hfind, hs⟩
  have hlen : (suitsOf hb.cards v).length = 2 := by
    have hp := List.find?_some hfind
    simpa using hp
  have hs2 : fillHand (valuesIdx hb.cards)
      (((suitsOf hb.cards v).map (fun t => Card.mk v t)).toFinset) 3 = s := hs
  have hdead : ∀ c ∈ ((suitsOf hb.cards v).map
      (fun t => Card.mk v t)).toFinset, c ∈ hb.cards := by
    intro c hc
    rw [mem_valueCards] at hc
    have hm := (mem_suitsOf _ _ _).mp hc.2
    rw [← hc.1] at hm
    exact hm
  obtain ⟨f1, f2, f3⟩ := fillHand_bounds hb.cards _ 3 (by omega) hdead hval
  have hdcard : ((suitsOf hb.cards v).map
      (fun t => Card.mk v t)).toFinset.card = 2 := by
    rw [card_valueCards v _ (suitsOf_nodup _ _)]
    exact hlen
  rw [hs2] at f1 f2 f3
  rw [hdcard] at f2 f3
  exact ⟨f1, by omega, fun hlt c hc => f3 (by omega) c hc⟩

theorem twoPair_bounds (hb : HB) (s : Finset Card)
    (hval : ∀ c ∈ hb.cards, c ∈ deck)
    (h : twoPair hb = some s) :
    (∀ c ∈ s, c ∈ hb.cards) ∧ s.card ≤ 5 ∧
      (s.card < 5 → ∀ c ∈ hb.cards, c ∈ s) := by
  unfold twoPair at h
  rcases List.exists_of_findSome?_eq_some h with ⟨v1, hv1, hfv1⟩
  by_cases hg : (suitsOf hb.cards v1).length = 2
  · rw [if_pos hg] at hfv1
    rcases Option.map_eq_some'.mp hfv1 with ⟨v2, hfind2, hs⟩
    have hp2 : (suitsOf hb.cards v2).length = 2 ∧ v2 ≠ v1 := by
      have hp := List.find?_some hfind2
      simpa using hp
    have hs2 : fillHand (valuesIdx hb.cards)
        (((suitsOf hb.cards v1).map (fun t => Card.mk v1 t)).toFinset ∪
          ((suitsOf hb.cards v2).map (fun t => Card.mk v2 t)).toFinset) 1 =
        s := hs
    have hdead : ∀ c ∈
        ((suitsOf hb.cards v1).map (fun t => Card.mk v1 t)).toFinset ∪
          ((suitsOf hb.cards v2).map (fun t => Card.mk v2 t)).toFinset,
        c ∈ hb.cards := by
      intro c hc
      rcases Finset.mem_union.mp hc with hc2 | hc2
      · rw [mem_valueCards] at hc2
        have hm := (mem_suitsOf _ _ _).mp hc2.2
        rw [← hc2.1] at hm
        exact hm
      · rw [mem_valueCards] at hc2
        have hm := (mem_suitsOf _ _ _).mp hc2.2
        rw [← hc2.1] at hm
        exact hm
    obtain ⟨f1, f2, f3⟩ := fillHand_bounds hb.cards _ 1 (by omega) hdead hval
    have hdcard :
        (((suitsOf hb.cards v1).map (fun t => Card.mk v1 t)).toFinset ∪
          ((suitsOf hb.cards v2).map (fun t => Card.mk v2 t)).toFinset).card =
        4 := by
      rw [Finset.card_union_of_disjoint]
      · rw [card_valueCards v1 _ (suitsOf_nodup _ _),
          card_valueCards v2 _ (suitsOf_nodup _ _), hg, hp2.1]
      · rw [Finset.disjoint_left]
        intro c hc1 hc2
        rw [mem_valueCards] at hc1 hc2
        exact hp2.2 (hc2.1 ▸ hc1.1)
    rw [hs2] at f1 f2 f3
    rw [hdcard] at f2 f3
    exact ⟨f1, by omega, fun hlt c hc => f3 (by omega) c hc⟩
  · rw [if_neg hg] at hfv1
    cases hfv1

theorem fullHouse_bounds (ch : Choice) (hb : HB) (s : Finset Card)
    (h : fullHouse ch hb = some s) :
    (∀ c ∈ s, c ∈ hb.cards) ∧ s.card = 5 := by
  unfold fullHouse at h
  rcases List.exists_of_findSome?_eq_some h with ⟨v1, hv1, hfv1⟩
  by_cases hg : (suitsOf hb.cards v1).length = 3
  · rw [if_pos hg] at hfv1
    rcases Option.map_eq_some'.mp hfv1 with ⟨v2, hfind2, hs⟩
    have hp2 : 2 ≤ (suitsOf hb.cards v2).length ∧ v2 ≠ v1 := by
      have hp := List.find?_some hfind2
      simpa using hp
    have hlne : suitsOf hb.cards v2 ≠ [] := by
      intro he
      rw [he] at hp2
      simp at hp2
    have hs1mem : pickOne (suitsOf hb.cards v2)
        (ch v2 (suitsOf hb.cards v2)) ∈ suitsOf hb.cards v2 :=
      pickOne_mem _ _ hlne
    have hrestlen :
        ((suitsOf hb.cards v2).erase
          (pickOne (suitsOf hb.cards v2)
            (ch v2 (suitsOf hb.cards v2)))).length =
          (suitsOf hb.cards v2).length - 1 :=
      List.length_erase_of_mem hs1mem
    have hrestne : (suitsOf hb.cards v2).erase
        (pickOne (suitsOf hb.cards v2)
          (ch v2 (suitsOf hb.cards v2))) ≠ [] := by
      intro he
      rw [he] at hrestlen
      simp at hrestlen
      omega
    have hs2mem := pickOne_mem _
      (ch v2 ((suitsOf hb.cards v2).erase
        (pickOne (suitsOf hb.cards v2) (ch v2 (suitsOf hb.cards v2)))))
      hrestne
    have hs2l := ((suitsOf_nodup hb.cards v2).mem_erase_iff).mp hs2mem
    have hpair : fullHousePair ch v2 (suitsOf hb.cards v2) =
        {Card.mk v2 (pickOne (suitsOf hb.cards v2)
            (ch v2 (suitsOf hb.cards v2))),
          Card.mk v2 (pickOne ((suitsOf hb.cards v2).erase
              (pickOne (suitsOf hb.cards v2) (ch v2 (suitsOf hb.cards v2))))
            (ch v2 ((suitsOf hb.cards v2).erase
              (pickOne (suitsOf hb.cards v2)
                (ch v2 (suitsOf hb.cards v2))))))} := rfl
    constructor
    · intro c hc
      rw [← hs] at hc
      rcases Finset.mem_union.mp hc with hc2 | hc2
      · rw [mem_valueCards] at hc2
        have hm := (mem_suitsOf _ _ _).mp hc2.2
        rw [← hc2.1] at hm
        exact hm
      · rw [hpair] at hc2
        rcases Finset.mem_insert.mp hc2 with rfl | hc3
        · exact (mem_suitsOf _ _ _).mp hs1mem
        · rw [Finset.mem_singleton] at hc3
          rw [hc3]
          exact (mem_suitsOf _ _ _).mp hs2l.2
    · rw [← hs]
      rw [Finset.card_union_of_disjoint]
      · rw [card_valueCards v1 _ (suitsOf_nodup _ _), hg, hpair,
          Finset.card_pair]
        intro he
        rw [Card.mk.injEq] at he
        exact hs2l.1 he.2.symm
      · rw [Finset.disjoint_left]
        intro c hc1 hc2
        rw [mem_valueCards] at hc1
        rw [hpair] at hc2
        rcases Finset.mem_insert.mp hc2 with rfl | hc3
        · exact hp2.2 (by simpa using hc1.1)
        · rw [Finset.mem_singleton] at hc3
          rw [hc3] at hc1
          exact hp2.2 (by simpa using hc1.1)
  · rw [if_neg hg] at hfv1
    cases hfv1

theorem mem_suitCards (t : Char) (l : List Char) (c : Card) :
    c ∈ (l.map (fun v => Card.mk v t)).toFinset ↔ c.s = t ∧ c.v ∈ l := by
  rw [List.mem_toFinset, List.mem_map]
  constructor
  · rintro ⟨v, hv, rfl⟩
    exact ⟨rfl, hv⟩
  · rintro ⟨ht, hv⟩
    refine ⟨c.v, hv, ?_⟩
    cases c
    simp at ht
    rw [ht]

theorem card_suitCards (t : Char) (l : List Char) (h : l.Nodup) :
    (l.map (fun v => Card.mk v t)).toFinset.card = l.length := by
  rw [List.toFinset_card_of_nodup, List.length_map]
  exact h.map (fun a b hab => by
    have := congrArg Card.v hab
    simpa using this)

theorem flushFn_bounds (hb : HB) (s : Finset Card)
    (hval : ∀ c ∈ hb.cards, c ∈ deck)
    (h : flushFn hb = some s) :
    (∀ c ∈ s, c ∈ hb.cards) ∧ s.card = 5 := by
  unfold flushFn at h
  rcases Option.map_eq_some'.mp h with ⟨t, hfind, hs⟩
  have hlen : 5 ≤ (valsOfSuit hb.cards t).length := by
    have hp := List.find?_some hfind
    simpa using hp
  have hlenf : 5 ≤
      (allValues.filter (fun v => v ∈ valsOfSuit hb.cards t)).length := by
    rw [filter_mem_length_comm allValues (valsOfSuit hb.cards t) (by decide)
      (List.nodup_dedup _)]
    rw [List.filter_eq_self.mpr]
    · exact hlen
    · intro a ha
      have hca : Card.mk a t ∈ hb.cards := (mem_valsOfSuit _ _ _).mp ha
      have := deckValue_mem_allValues _ (hval _ hca)
      simpa using this
  have hvslen :
      ((allValues.filter (fun v => v ∈ valsOfSuit hb.cards t)).take 5).length
        = 5 := by
    rw [List.length_take]
    omega
  have hvsnodup :
      ((allValues.filter (fun v => v ∈ valsOfSuit hb.cards t)).take 5).Nodup :=
    (List.take_sublist _ _).nodup
      (List.Nodup.filter _ (by decide : allValues.Nodup))
  rw [← hs]
  constructor
  · intro c hc
    rw [mem_suitCards] at hc
    have hcv : c.v ∈ valsOfSuit hb.cards t := by
      have hx := (List.take_sublist _ _).subset hc.2
      have := List.mem_filter.mp hx
      simpa using this.2
    have hm := (mem_valsOfSuit _ _ _).mp hcv
    rw [← hc.1] at hm
    exact hm
  · rw [card_suitCards _ _ hvsnodup, hvslen]

theorem straightFn_bounds (ch : Choice) (hb : HB) (s : Finset Card)
    (hw : ∀ w ∈ hb.pstraight, w ∈ allStraights)
    (h : straightFn ch hb = some s) :
    (∀ c ∈ s, c ∈ hb.cards) ∧ s.card = 5 := by
  unfold straightFn at h
  rcases Option.map_eq_some'.mp h with ⟨w, hfind, hs⟩
  have hwin : w ∈ allStraights := hw w (List.mem_of_find?_eq_some hfind)
  have hwprop : w.Nodup ∧ w.length = 5 := by
    have hall : ∀ x ∈ allStraights, List.Nodup x ∧ x.length = 5 := by decide
    exact hall w hwin
  have hallmem : ∀ v ∈ w, v ∈ valuesKeys hb.cards := by
    intro v hv
    have hp := List.find?_some hfind
    have hp2 : w.all (fun v => decide (v ∈ valuesKeys hb.cards)) = true := by
      simpa using hp
    have := List.all_eq_true.mp hp2 v hv
    simpa using this
  rw [← hs]
  constructor
  · intro c hc
    rw [List.mem_toFinset, List.mem_map] at hc
    rcases hc with ⟨v, hvw, rfl⟩
    have hne : suitsOf hb.cards v ≠ [] :=
      (mem_valuesKeys _ _).mp (hallmem v hvw)
    have hpm := pickOne_mem (suitsOf hb.cards v)
      (ch v (suitsOf hb.cards v)) hne
    exact (mem_suitsOf _ _ _).mp hpm
  · rw [List.toFinset_card_of_nodup, List.length_map, hwprop.2]
    exact hwprop.1.map (fun a b hab => by
      have := congrArg Card.v hab
      simpa using this)

theorem bestHand_bounds (ch : Choice) (hb : HB)
    (hval : ∀ c ∈ hb.cards, c ∈ deck)
    (hw : ∀ w ∈ hb.pstraight, w ∈ allStraights) :
    (∀ c ∈ (bestHand ch hb).1, c ∈ hb.cards) ∧
      (bestHand ch hb).1.card ≤ 5 ∧
      ((bestHand ch hb).1.card < 5 →
        ∀ c ∈ hb.cards, c ∈ (bestHand ch hb).1) := by
  unfold bestHand
  simp only [phands, bestHandAux]
  cases h1 : straightFlush hb with
  | some x =>
    obtain ⟨b1, b2⟩ := straightFlush_bounds hb x h1
    show (∀ c ∈ x, c ∈ hb.cards) ∧ x.card ≤ 5 ∧
      (x.card < 5 → ∀ c ∈ hb.cards, c ∈ x)
    exact ⟨b1, by omega, fun hlt => absurd hlt (by omega)⟩
  | none =>
  cases h2 : quads hb with
  | some x => exact quads_bounds hb x hval h2
  | none =>
  cases h3 : fullHouse ch hb with
  | some x =>
    obtain ⟨b1, b2⟩ := fullHouse_bounds ch hb x h3
    show (∀ c ∈ x, c ∈ hb.cards) ∧ x.card ≤ 5 ∧
      (x.card < 5 → ∀ c ∈ hb.cards, c ∈ x)
    exact ⟨b1, by omega, fun hlt => absurd hlt (by omega)⟩
  | none =>
  cases h4 : flushFn hb with
  | some x =>
    obtain ⟨b1, b2⟩ := flushFn_bounds hb x hval h4
    show (∀ c ∈ x, c ∈ hb.cards) ∧ x.card ≤ 5 ∧
      (x.card < 5 → ∀ c ∈ hb.cards, c ∈ x)
    exact ⟨b1, by omega, fun hlt => absurd hlt (by omega)⟩
  | none =>
  cases h5 : straightFn ch hb with
  | some x =>
    obtain ⟨b1, b2⟩ := straightFn_bounds ch hb x hw h5
    show (∀ c ∈ x, c ∈ hb.cards) ∧ x.card ≤ 5 ∧
      (x.card < 5 → ∀ c ∈ hb.cards, c ∈ x)
    exact ⟨b1, by omega, fun hlt => absurd hlt (by omega)⟩
  | none =>
  cases h6 : trips hb with
  | some x => exact trips_bounds hb x hval h6
  | none =>
  cases h7 : twoPair hb with
  | some x => exact twoPair_bounds hb x hval h7
  | none =>
  cases h8 : onePair hb with
  | some x => exact onePair_bounds hb x hval h8
  | none =>
    obtain ⟨f1, f2, f3⟩ := fillHand_bounds hb.cards ∅ 5 (by omega)
      (fun c hc => absurd hc (Finset.not_mem_empty c)) hval
    rw [Finset.card_empty] at f2 f3
    show (∀ c ∈ fillHand (valuesIdx hb.cards) ∅ 5, c ∈ hb.cards) ∧
      (fillHand (valuesIdx hb.cards) ∅ 5).card ≤ 5 ∧
      ((fillHand (valuesIdx hb.cards) ∅ 5).card < 5 →
        ∀ c ∈ hb.cards, c ∈ fillHand (valuesIdx hb.cards) ∅ 5)
    exact ⟨f1, by omega, fun hlt c hc => f3 (by omega) c hc⟩

theorem validSet_ok_mem (cards : List Card) (u : Unit)
    (h : validSet cards = .ok u) : ∀ c ∈ cards, c ∈ deck := by
  unfold validSet at h
  by_cases hall : (cards.all fun c => decide (c ∈ deck)) = true
  · rw [List.all_eq_true] at hall
    intro c hc
    exact of_decide_eq_true (hall c hc)
  · rw [if_neg hall] at h
    cases h

theorem mkHBoardRest_ok (ch : Choice) (cards board : List Card)
    (hbS : HBoardT) (h : mkHBoardRest ch cards board = .ok hbS) :
    hbS.cards = cards.dedup ∧ hbS.pstraight = pstraightFn board.dedup ∧
      hbS.best_hand =
        (bestHand ch (HB.mk cards.dedup (pstraightFn board.dedup)
          (pflushFn board.dedup))).1 := by
  unfold mkHBoardRest at h
  cases h
  exact ⟨rfl, rfl, rfl⟩

theorem mkHBoard_ok (ch : Choice) (hand flop turn river : List Card)
    (hbS : HBoardT) (h : mkHBoard ch hand flop turn river = .ok hbS) :
    ∃ cardsAcc boardAcc : List Card,
      (∀ c ∈ cardsAcc, c ∈ deck) ∧
        mkHBoardRest ch cardsAcc boardAcc = .ok hbS := by
  unfold mkHBoard at h
  split at h
  next e heq =>
    cases h
  next u heq =>
    split at h
    next e heq2 =>
      cases h
    next hd heq2 =>
      split at h
      next =>
        exact ⟨hand ++ flop, flop, validSet_ok_mem _ u heq, h⟩
      next t ts =>
        split at h
        next e heq3 =>
          cases h
        next u2 heq3 =>
          split at h
          next =>
            refine ⟨hand ++ flop ++ (t :: ts), flop ++ (t :: ts), ?_, h⟩
            intro c hc
            rcases List.mem_append.mp hc with hc | hc
            · exact validSet_ok_mem _ u heq c hc
            · exact validSet_ok_mem _ u2 heq3 c hc
          next r rs =>
            split at h
            next e heq4 =>
              cases h
            next u3 heq4 =>
              refine ⟨hand ++ flop ++ (t :: ts) ++ (r :: rs),
                flop ++ (t :: ts) ++ (r :: rs), ?_, h⟩
              intro c hc
              rcases List.mem_append.mp hc with hc | hc
              · rcases List.mem_append.mp hc with hc | hc
                · exact validSet_ok_mem _ u heq c hc
                · exact validSet_ok_mem _ u2 heq3 c hc
              · exact validSet_ok_mem _ u3 heq4 c hc

/-- C1: for every successfully constructed aggregate, the resolved best
hand is a subset of the full card set, has at most 5 cards, and has fewer
than 5 cards only when the aggregate holds fewer than 5 cards in total. -/
theorem c1_best_hand_bounds :
    ∀ (ch : Choice) (hand flop turn river : List Card) (hbS : HBoardT),
      mkHBoard ch hand flop turn river = .ok hbS →
      hbS.best_hand ⊆ hbS.cards.toFinset ∧ hbS.best_hand.card ≤ 5 ∧
        (hbS.best_hand.card < 5 → hbS.cards.toFinset.card < 5) := by
  intro ch hand flop turn river hbS h
  rcases mkHBoard_ok ch hand flop turn river hbS h with ⟨ca, ba, hvd, hrest⟩
  obtain ⟨hcards, hps, hbest⟩ := mkHBoardRest_ok ch ca ba hbS hrest
  have hval : ∀ c ∈ (HB.mk ca.dedup (pstraightFn ba.dedup)
      (pflushFn ba.dedup)).cards, c ∈ deck := by
    intro c hc
    exact hvd c (List.mem_dedup.mp hc)
  have hw : ∀ w ∈ (HB.mk ca.dedup (pstraightFn ba.dedup)
      (pflushFn ba.dedup)).pstraight, w ∈ allStraights := by
    intro w hwmem
    have hwmem2 : w ∈ pstraightFn ba.dedup := hwmem
    unfold pstraightFn at hwmem2
    exact List.mem_of_mem_filter hwmem2
  obtain ⟨b1, b2, b3⟩ := bestHand_bounds ch
    (HB.mk ca.dedup (pstraightFn ba.dedup) (pflushFn ba.dedup)) hval hw
  rw [hbest, hcards]
  refine ⟨?_, b2, ?_⟩
  · intro c hc
    exact List.mem_toFinset.mpr (b1 c hc)
  · intro hlt
    have hsub : ca.dedup.toFinset ⊆
        (bestHand ch (HB.mk ca.dedup (pstraightFn ba.dedup)
          (pflushFn ba.dedup))).1 := by
      intro c hc
      exact b3 hlt c (List.mem_toFinset.mp hc)
    have hle := Finset.card_le_card hsub
    omega

/-- Witness for C1, at a 2-card aggregate with an empty flop: the resolver
returns both cards with fewer than 5 total cards available. -/
theorem c1_witness :
    (HBoardT.mk [Card.mk '2' 'c', Card.mk '3' 'd'] [] [] none
        {Card.mk '2' 'c', Card.mk '3' 'd'} "none").best_hand ⊆
      (HBoardT.mk [Card.mk '2' 'c', Card.mk '3' 'd'] [] [] none
        {Card.mk '2' 'c', Card.mk '3' 'd'} "none").cards.toFinset ∧
      (HBoardT.mk [Card.mk '2' 'c', Card.mk '3' 'd'] [] [] none
        {Card.mk '2' 'c', Card.mk '3' 'd'} "none").best_hand.card ≤ 5 ∧
      ((HBoardT.mk [Card.mk '2' 'c', Card.mk '3' 'd'] [] [] none
          {Card.mk '2' 'c', Card.mk '3' 'd'} "none").best_hand.card < 5 →
        (HBoardT.mk [Card.mk '2' 'c', Card.mk '3' 'd'] [] [] none
          {Card.mk '2' 'c', Card.mk '3' 'd'}
          "none").cards.toFinset.card < 5) :=
  c1_best_hand_bounds ch0 [Card.mk '2' 'c', Card.mk '3' 'd'] [] [] [] _
    (by decide)

end EquiPy













